import Mathlib

/-!
Verification of the nanoSignal reactive-state library.

The development shallowly embeds the two source modules:

* `objectUtils.ts` — the flatten/unflatten codec (`flattenObject`,
  `unflattenObject`), modelled on an inductive type `JSVal` of JavaScript
  values.  Objects are association lists in insertion order, arrays are
  lists, functions are carried as their source text.
* `nanoSignal.ts` — signals, effects and computed signals.  The mutable
  module state (signal cells, the single dependency slot `changes._signal`,
  the `effectsMap`) is a record `SignalsState`; effect callbacks are a small
  deep-embedded callback language `CB`, and callback execution is a
  fuel-indexed interpreter `exec`.  The state also carries an invocation
  `log` recording each callback run, used to observe how often effects fire.
-/

namespace NanoSig

/-- JavaScript values as stored and transformed by the library: primitives,
functions (kept as source text), objects (association lists in insertion
order) and arrays. -/
inductive JSVal where
  | vundef
  | vnull
  | vbool (b : Bool)
  | vnum (n : Int)
  | vstr (s : String)
  | vfun (src : String)
  | vobj (fields : List (String × JSVal))
  | varr (elems : List JSVal)

open JSVal

mutual
def jeqV : JSVal → JSVal → Bool
  | vundef, vundef => true
  | vnull, vnull => true
  | vbool a, vbool b => a == b
  | vnum a, vnum b => a == b
  | vstr a, vstr b => a == b
  | vfun a, vfun b => a == b
  | vobj a, vobj b => jeqF a b
  | varr a, varr b => jeqL a b
  | _, _ => false

def jeqF : List (String × JSVal) → List (String × JSVal) → Bool
  | [], [] => true
  | (k, v) :: r, (k', v') :: r' => k == k' && jeqV v v' && jeqF r r'
  | _, _ => false

def jeqL : List JSVal → List JSVal → Bool
  | [], [] => true
  | e :: r, e' :: r' => jeqV e e' && jeqL r r'
  | _, _ => false
end

mutual
theorem jeqV_iff : ∀ a b : JSVal, jeqV a b = true ↔ a = b
  | vundef, b => by cases b <;> simp [jeqV]
  | vnull, b => by cases b <;> simp [jeqV]
  | vbool _, b => by cases b <;> simp [jeqV]
  | vnum _, b => by cases b <;> simp [jeqV]
  | vstr _, b => by cases b <;> simp [jeqV]
  | vfun _, b => by cases b <;> simp [jeqV]
  | vobj a, b => by
      cases b <;> simp [jeqV]
      case vobj b => exact jeqF_iff a b
  | varr a, b => by
      cases b <;> simp [jeqV]
      case varr b => exact jeqL_iff a b

theorem jeqF_iff : ∀ a b : List (String × JSVal), jeqF a b = true ↔ a = b
  | [], [] => by simp [jeqF]
  | [], _ :: _ => by simp [jeqF]
  | _ :: _, [] => by simp [jeqF]
  | (k, v) :: r, (k', v') :: r' => by
      simp [jeqF, jeqV_iff v v', jeqF_iff r r', Prod.ext_iff, and_assoc]

theorem jeqL_iff : ∀ a b : List JSVal, jeqL a b = true ↔ a = b
  | [], [] => by simp [jeqL]
  | [], _ :: _ => by simp [jeqL]
  | _ :: _, [] => by simp [jeqL]
  | e :: r, e' :: r' => by simp [jeqL, jeqV_iff e e', jeqL_iff r r']
end

instance : DecidableEq JSVal := fun a b => decidable_of_iff (jeqV a b = true) (jeqV_iff a b)

/-- JavaScript truthiness: `undefined`, `null`, `false`, `0` and `""` are
falsy, everything else (including every object, array and function) is
truthy. -/
def truthy : JSVal → Bool
  | vundef => false
  | vnull => false
  | vbool b => b
  | vnum n => n != 0
  | vstr s => s != ""
  | _ => true

/-- The test `typeof v === "object" && v !== null` used throughout the
source: true exactly for plain objects and arrays. -/
def isObjLike : JSVal → Bool
  | vobj _ => true
  | varr _ => true
  | _ => false

/-! Decimal rendering and parsing of array indices (template interpolation
of an index and `parseInt` on the captured digit group). -/

def decAux : Nat → Nat → List Char
  | 0, _ => []
  | fuel + 1, n =>
      if n < 10 then [Char.ofNat (48 + n)]
      else decAux fuel (n / 10) ++ [Char.ofNat (48 + n % 10)]

/-- Decimal rendering of a natural number, as produced by JavaScript string
interpolation of an array index. -/
def natToString (n : Nat) : String := String.mk (decAux (n + 1) n)

/-- Value of the decimal digit list that `parseInt` computes. -/
def parseDigits (ds : List Char) : Nat := ds.foldl (fun a c => 10 * a + (c.toNat - 48)) 0

/-! Property access and update on `JSVal`.  Objects keep the JavaScript
behaviour that overwriting an existing key keeps its position and that new
keys are appended; arrays accept canonical numeric index strings. -/

def lookupKV : List (String × JSVal) → String → Option JSVal
  | [], _ => none
  | (k, v) :: rest, key => if k = key then some v else lookupKV rest key

def assignKV (m : List (String × JSVal)) (k : String) (v : JSVal) : List (String × JSVal) :=
  if m.any (fun p => p.1 = k)
  then m.map (fun p => if p.1 = k then (k, v) else p)
  else m ++ [(k, v)]

def objAssign (target source : List (String × JSVal)) : List (String × JSVal) :=
  source.foldl (fun t p => assignKV t p.1 p.2) target

/-- A string that is the canonical decimal form of a natural number, the
only strings treated as array indices by property access. -/
def canonIdx (k : String) : Option Nat :=
  let n := parseDigits k.data
  if k.data ≠ [] ∧ k.data.all Char.isDigit ∧ natToString n = k then some n else none

def setIdx (v : JSVal) (i : Nat) (x : JSVal) : JSVal :=
  match v with
  | varr es =>
      if i < es.length then varr (es.set i x)
      else varr (es ++ List.replicate (i - es.length) vundef ++ [x])
  | vobj fields => vobj (assignKV fields (natToString i) x)
  | other => other

def getIdx (v : JSVal) (i : Nat) : JSVal :=
  match v with
  | varr es => es.getD i vundef
  | vobj fields => (lookupKV fields (natToString i)).getD vundef
  | _ => vundef

def getProp (v : JSVal) (k : String) : JSVal :=
  match v with
  | vobj fields => (lookupKV fields k).getD vundef
  | varr es =>
      match canonIdx k with
      | some i => es.getD i vundef
      | none => vundef
  | _ => vundef

def setProp (v : JSVal) (k : String) (x : JSVal) : JSVal :=
  match v with
  | vobj fields => vobj (assignKV fields k x)
  | varr es =>
      match canonIdx k with
      | some i => setIdx (varr es) i x
      | none => varr es
  | other => other

/-- Presence test `"__function__" in value` on an object. -/
def hasFunKey : JSVal → Bool
  | vobj fields => fields.any (fun p => p.1 == "__function__")
  | _ => false

/-- The function marker `{ __function__: value.toString() }` stored by the
flatten side for function-valued properties. -/
def markerObj (src : String) : JSVal := vobj [("__function__", vstr src)]

/-- Source text held under the `__function__` key of a marker. -/
def srcText (v : JSVal) : String :=
  match getProp v "__function__" with
  | vstr s => s
  | _ => ""

/-- Key combination `parentKey ? parentKey + separator + key : key`. -/
def joinKey (pk sep k : String) : String := if pk = "" then k else pk ++ sep ++ k

/-! The comprehensive `flattenObject` of `objectUtils.ts`: a `for ... in`
loop over own enumerable keys, recursing into plain objects, expanding
arrays with `key[index]` paths (recursing into object or array elements),
replacing function-valued properties by a marker and storing every other
value directly.  `for ... in` over an array visits its index keys, and over
a string visits the character index keys. -/

def flattenStrChars : List Char → Nat → String → String → List (String × JSVal) → List (String × JSVal)
  | [], _, _, _, acc => acc
  | c :: rest, i, pk, sep, acc =>
      flattenStrChars rest (i + 1) pk sep
        (assignKV acc (joinKey pk sep (natToString i)) (vstr (String.mk [c])))

mutual
def flattenTop : JSVal → String → String → List (String × JSVal)
  | vobj fields, pk, sep => flattenFields fields pk sep []
  | varr es, pk, sep => flattenArrTop es 0 pk sep []
  | vstr s, pk, sep => flattenStrChars s.data 0 pk sep []
  | _, _, _ => []

def flattenFields : List (String × JSVal) → String → String → List (String × JSVal) → List (String × JSVal)
  | [], _, _, acc => acc
  | (key, value) :: rest, pk, sep, acc =>
      flattenFields rest pk sep (flattenEntry value (joinKey pk sep key) sep acc)
termination_by structural l _ _ _ => l

def flattenArrTop : List JSVal → Nat → String → String → List (String × JSVal) → List (String × JSVal)
  | [], _, _, _, acc => acc
  | e :: rest, i, pk, sep, acc =>
      flattenArrTop rest (i + 1) pk sep (flattenEntry e (joinKey pk sep (natToString i)) sep acc)
termination_by structural l _ _ _ _ => l

def flattenEntry : JSVal → String → String → List (String × JSVal) → List (String × JSVal)
  | vobj gf, ck, sep, acc => objAssign acc (flattenFields gf ck sep [])
  | varr es, ck, sep, acc => flattenElems es 0 ck sep acc
  | vfun src, ck, _, acc => assignKV acc ck (markerObj src)
  | v, ck, _, acc => assignKV acc ck v
termination_by structural v _ _ _ => v

def flattenElems : List JSVal → Nat → String → String → List (String × JSVal) → List (String × JSVal)
  | [], _, _, _, acc => acc
  | e :: rest, i, ck, sep, acc =>
      let arrayKey := ck ++ "[" ++ natToString i ++ "]"
      let acc' := match e with
        | vobj gf => objAssign acc (flattenFields gf arrayKey sep [])
        | varr es2 => objAssign acc (flattenArrTop es2 0 arrayKey sep [])
        | other => assignKV acc arrayKey other
      flattenElems rest (i + 1) ck sep acc'
termination_by structural l _ _ _ _ => l
end

/-- `flattenObject(obj, parentKey = "", separator = ".")`: the flat map it
returns, as a `JSVal` object. -/
def flattenObject (obj : JSVal) (parentKey : String := "") (separator : String := ".") : JSVal :=
  vobj (flattenTop obj parentKey separator)

/-! `unflattenObject` from `objectUtils.ts`. -/

/-- The regular expression `^(.*)\[(\d+)\]$` applied to one path segment:
with a greedy leading group it matches exactly the strings that end in a
bracketed nonempty digit run, capturing everything before the last opening
bracket as the name and the digit run as the index.  Scanning the
characters from the right: a final `]`, then the maximal digit run, then
the `[`. -/
def parseArraySegL (cs : List Char) : Option (String × Nat) :=
  match cs.reverse with
  | c :: bodyRev =>
      if c = ']' then
        let rds := bodyRev.takeWhile Char.isDigit
        if rds.isEmpty then none
        else
          match bodyRev.drop rds.length with
          | b :: restRev =>
              if b = '[' then some (String.mk restRev.reverse, parseDigits rds.reverse) else none
          | [] => none
      else none
  | [] => none

def parseArraySeg (s : String) : Option (String × Nat) := parseArraySegL s.data

def splitFuel : Nat → List Char → List Char → List Char → List (List Char)
  | 0, _, _, acc => [acc.reverse]
  | _ + 1, _, [], acc => [acc.reverse]
  | fuel + 1, sep, c :: rest, acc =>
      if sep.isPrefixOf (c :: rest)
      then acc.reverse :: splitFuel fuel sep ((c :: rest).drop sep.length) []
      else splitFuel fuel sep rest (c :: acc)

/-- JavaScript `key.split(separator)` for a string separator. -/
def jsSplit (s sep : String) : List String :=
  if sep = "" then s.data.map (fun c => String.mk [c])
  else (splitFuel (s.data.length + 1) sep.data s.data []).map String.mk

/-- Terminal assignment of `unflattenObject`: a non-null object value with a
`__function__` key is recompiled into a callable from its source text, any
other value is assigned directly. -/
def reconstructLeaf (value : JSVal) : JSVal :=
  if isObjLike value && hasFunKey value then vfun (srcText value) else value

/-- One key of the `unflattenObject` loop: walk the split path through the
partially built result, creating `[]` for a missing array-segment target and
`{}` for a missing or non-object intermediate, and assign the
(possibly reconstructed) value at the terminal segment. -/
def unflattenInsert (cur : JSVal) : List String → JSVal → JSVal
  | [], _ => cur
  | part :: rest, value =>
      match parseArraySeg part with
      | some (name, index) =>
          let cur1 := if truthy (getProp cur name) then cur else setProp cur name (varr [])
          let arr := getProp cur1 name
          if rest.isEmpty then
            setProp cur1 name (setIdx arr index (reconstructLeaf value))
          else
            let elem := getIdx arr index
            let elem1 := if isObjLike elem then elem else vobj []
            setProp cur1 name (setIdx arr index (unflattenInsert elem1 rest value))
      | none =>
          if rest.isEmpty then
            setProp cur part (reconstructLeaf value)
          else
            let child := getProp cur part
            let child1 := if isObjLike child then child else vobj []
            setProp cur part (unflattenInsert child1 rest value)

def enumPairs : Nat → List JSVal → List (String × JSVal)
  | _, [] => []
  | i, e :: rest => (natToString i, e) :: enumPairs (i + 1) rest

def strPairs : Nat → List Char → List (String × JSVal)
  | _, [] => []
  | i, c :: rest => (natToString i, vstr (String.mk [c])) :: strPairs (i + 1) rest

/-- The own enumerable key/value pairs visited by `for ... in`. -/
def forInPairs : JSVal → List (String × JSVal)
  | vobj fields => fields
  | varr es => enumPairs 0 es
  | vstr s => strPairs 0 s.data
  | _ => []

/-- `unflattenObject(flattened, separator = ".")`. -/
def unflattenObject (flattened : JSVal) (separator : String := ".") : JSVal :=
  (forInPairs flattened).foldl
    (fun result p => unflattenInsert result (jsSplit p.1 separator) p.2) (vobj [])

/-! The reactive core of `nanoSignal.ts`.  Signals are cells in a list,
identified by their index; the single global dependency slot
`changes._signal` and the `effectsMap` live in `SignalsState`.  Effect
callbacks are a small deep embedding `CB`: reading a signal, writing the
value of an expression into a signal (the shape of the internal callback of
`computed`), or throwing.  An invocation log observes callback runs. -/

/-- Expressions evaluated inside callbacks; reading a signal goes through
the tracked getter. -/
inductive Expr where
  | num (n : Int)
  | readSig (sid : Nat)
  | add (a b : Expr)
  | mul (a b : Expr)
deriving DecidableEq

/-- Effect callbacks. -/
inductive CB where
  | readSig (sid : Nat)
  | writeExpr (tgt : Nat) (e : Expr)
  | throwErr (msg : String)
deriving DecidableEq

/-- The mutable module state of `nanoSignal.ts`: the signal cells, the
dependency-tracking slot, the effects registry, plus an observation log of
callback invocations. -/
structure SignalsState where
  sigs : List JSVal
  changes : Option Nat
  effectsMap : List (Nat × List CB)
  log : List CB
deriving DecidableEq

/-- Raw `_signal.value` of a cell. -/
def getStored (st : SignalsState) (sid : Nat) : JSVal := st.sigs.getD sid vundef

/-- `_detectChange`: record the signal just read in the global slot. -/
def _detectChange (st : SignalsState) (sid : Nat) : SignalsState :=
  { st with changes := some sid }

/-- The tracked getter `get value()`: record the read, then return the
stored value, unflattened first when it is a non-null object. -/
def signalGet (st : SignalsState) (sid : Nat) : SignalsState × JSVal :=
  let st1 := _detectChange st sid
  let v := getStored st sid
  (st1, if isObjLike v then unflattenObject v "." else v)

/-- `_setSignalValue`: store `flattenObject(val)` for a non-null object
value, the value itself otherwise. -/
def _setSignalValue (st : SignalsState) (sid : Nat) (v : JSVal) : SignalsState :=
  { st with sigs := st.sigs.set sid (if isObjLike v then flattenObject v "" "." else v) }

def jsAdd : JSVal → JSVal → JSVal
  | vnum a, vnum b => vnum (a + b)
  | _, _ => vundef

def jsMul : JSVal → JSVal → JSVal
  | vnum a, vnum b => vnum (a * b)
  | _, _ => vundef

def evalExpr (st : SignalsState) : Expr → SignalsState × JSVal
  | Expr.num n => (st, vnum n)
  | Expr.readSig sid => signalGet st sid
  | Expr.add a b =>
      let r1 := evalExpr st a
      let r2 := evalExpr r1.1 b
      (r2.1, jsAdd r1.2 r2.2)
  | Expr.mul a b =>
      let r1 := evalExpr st a
      let r2 := evalExpr r1.1 b
      (r2.1, jsMul r1.2 r2.2)

def lookupEffs : List (Nat × List CB) → Nat → Option (List CB)
  | [], _ => none
  | (sid, cbs) :: rest, key => if sid = key then some cbs else lookupEffs rest key

/-- Append a callback to the effect list of a signal, creating the entry if
absent (`effectsMap.get(s).push(fn)` / `effectsMap.set(s, [fn])`). -/
def addEff (m : List (Nat × List CB)) (sid : Nat) (cb : CB) : List (Nat × List CB) :=
  if m.any (fun p => p.1 = sid)
  then m.map (fun p => if p.1 = sid then (p.1, p.2 ++ [cb]) else p)
  else m ++ [(sid, [cb])]

/-- The four mutually recursive run-time activities: invoking one callback,
invoking a list of callbacks in order, the `set value(v)` setter, and
`_runEffects`. -/
inductive Call where
  | runCB (cb : CB)
  | runCBs (cbs : List CB)
  | setValue (sid : Nat) (v : JSVal)
  | runEffects (sid : Nat)

/-- Fuel-indexed interpreter for the reactive runtime.  Each step returns
the new state and `some msg` when an exception is propagating (a thrown
callback, or fuel exhaustion standing for stack overflow of unbounded
effect recursion).  Every callback invocation is appended to the log. -/
def exec : Nat → SignalsState → Call → SignalsState × Option String
  | 0, st, _ => (st, some "stack overflow")
  | fuel + 1, st, Call.runCB cb =>
      let st := { st with log := st.log ++ [cb] }
      match cb with
      | CB.readSig sid => ((signalGet st sid).1, none)
      | CB.writeExpr tgt e =>
          let r := evalExpr st e
          exec fuel r.1 (Call.setValue tgt r.2)
      | CB.throwErr msg => (st, some msg)
  | _ + 1, st, Call.runCBs [] => (st, none)
  | fuel + 1, st, Call.runCBs (c :: rest) =>
      let r := exec fuel st (Call.runCB c)
      match r.2 with
      | none => exec fuel r.1 (Call.runCBs rest)
      | some e => (r.1, some e)
  | fuel + 1, st, Call.setValue sid v =>
      exec fuel (_setSignalValue st sid v) (Call.runEffects sid)
  | fuel + 1, st, Call.runEffects sid =>
      match lookupEffs st.effectsMap sid with
      | none => (st, none)
      | some cbs => exec fuel st (Call.runCBs cbs)

/-- The public setter `signal.value = v`: `_setSignalValue` followed by
`_runEffects`. -/
def setValue (fuel : Nat) (st : SignalsState) (sid : Nat) (v : JSVal) :
    SignalsState × Option String :=
  exec fuel st (Call.setValue sid v)

/-- `nanoSignal(initVal)`: allocate a fresh cell holding the initial value
as given, and return its identity. -/
def nanoSignal (st : SignalsState) (initVal : JSVal) : SignalsState × Nat :=
  ({ st with sigs := st.sigs ++ [initVal] }, st.sigs.length)

/-- `effect(fn)`: run the callback once; if it returns normally and the
dependency slot holds a signal, subscribe the callback to that signal and
clear the slot.  A propagating exception skips the subscription step. -/
def effect (fuel : Nat) (st : SignalsState) (fn : CB) : SignalsState × Option String :=
  let r := exec fuel st (Call.runCB fn)
  match r.2 with
  | some e => (r.1, some e)
  | none =>
      match r.1.changes with
      | some sid =>
          ({ r.1 with effectsMap := addEff r.1.effectsMap sid fn, changes := none }, none)
      | none => (r.1, none)

/-- `computed(fn)`: for a non-function argument return `false` (here
`none`); otherwise evaluate the derivation once, build a signal from the
result, and register an effect that writes the re-evaluated derivation into
that signal.  Returns the identity of the computed signal. -/
def computed (fuel : Nat) (st : SignalsState) (fn : Option Expr) : SignalsState × Option Nat :=
  match fn with
  | none => (st, none)
  | some e =>
      let r0 := evalExpr st e
      let r1 := nanoSignal r0.1 r0.2
      let r2 := effect fuel r1.1 (CB.writeExpr r1.2 e)
      (r2.1, some r1.2)

/-! The polymorphic `set` helper.  It dispatches on the runtime type of its
argument: a non-null object, a function updater, or anything else.  A
function updater is modelled as a pure value transformer (returning
`undefined` models a bare return). -/

/-- The own enumerable pairs contributed by object spread `{...v}`. -/
def spreadPairs : JSVal → List (String × JSVal)
  | vobj fields => fields
  | varr es => enumPairs 0 es
  | vstr s => strPairs 0 s.data
  | _ => []

/-- `_setSignalObject`: flatten the update, spread-merge it over the current
stored value and store the result through `_setSignalValue`. -/
def _setSignalObject (st : SignalsState) (sid : Nat) (obj : JSVal) : SignalsState :=
  let newValue := flattenTop obj "" "."
  _setSignalValue st sid (vobj (objAssign (spreadPairs (getStored st sid)) newValue))

/-- The three runtime shapes accepted by `set`. -/
inductive SetArg where
  | objArg (o : JSVal)
  | fnArg (f : JSVal → JSVal)
  | rawArg (v : JSVal)

/-- `set(signal, fnOrObj)`.  Objects are merged; a function updater is
invoked with the unflattened current value, a truthy return value is merged
as an object, otherwise the (possibly mutated) argument is re-flattened and
re-merged; any other argument is stored directly.  The second component is
the returned value (`true`, or the freshly stored value for the direct
branch). -/
def set (st : SignalsState) (sid : Nat) : SetArg → SignalsState × JSVal
  | SetArg.objArg o => (_setSignalObject st sid o, vbool true)
  | SetArg.fnArg f =>
      let newValue := unflattenObject (getStored st sid) "."
      let returnValue := f newValue
      if truthy returnValue then (_setSignalObject st sid returnValue, vbool true)
      else
        let st1 := _setSignalValue st sid
          (vobj (objAssign (spreadPairs (getStored st sid)) (flattenTop newValue "" ".")))
        (st1, vbool true)
  | SetArg.rawArg v =>
      let st1 := _setSignalValue st sid v
      (st1, getStored st1 sid)

/-- The empty module state: no signals, empty dependency slot, no
subscriptions, empty invocation log. -/
def emptyState : SignalsState := ⟨[], none, [], []⟩

/-! Claim theorems: concrete reactive scenarios. -/

/-- C2: starting from an empty dependency slot and no subscriptions, with
`s = createSignal(0)`, running `effect(f)` for `f = () => { s.value; }` and
then writing `s.value = 1` leaves the invocation log with exactly two runs
of `f`: one at registration and one triggered by the write. -/
theorem claim_C2 :
    (let s := nanoSignal emptyState (vnum 0)
     let afterEffect := effect 10 s.1 (CB.readSig s.2)
     let afterWrite := setValue 10 afterEffect.1 s.2 (vnum 1)
     afterEffect.1.log = [CB.readSig s.2] ∧
      afterWrite.1.log = [CB.readSig s.2, CB.readSig s.2] ∧ afterWrite.2 = none) := by
  decide

/-- C3: with `a = createSignal(2)` and `c = computed(() => a.value * 2)`,
`computed` returns a signal handle (not the `false` sentinel), `c.value`
reads 4, and after `a.value = 5` it reads 10. -/
theorem claim_C3 :
    (let a := nanoSignal emptyState (vnum 2)
     let c := computed 10 a.1 (some (Expr.mul (Expr.readSig a.2) (Expr.num 2)))
     c.2 = some 1 ∧
      (signalGet c.1 1).2 = vnum 4 ∧
      (signalGet (setValue 10 c.1 a.2 (vnum 5)).1 1).2 = vnum 10) := by
  decide

/-- C5: with `a = createSignal(1)`, `b = createSignal(1)` and
`c = computed(() => a.value + b.value)`, only the last-read signal `b` is
captured as the dependency, so the write `a.value = 9` leaves `c.value`
at 2. -/
theorem claim_C5 :
    (let a := nanoSignal emptyState (vnum 1)
     let b := nanoSignal a.1 (vnum 1)
     let c := computed 10 b.1 (some (Expr.add (Expr.readSig a.2) (Expr.readSig b.2)))
     c.2 = some 2 ∧
      c.1.effectsMap = [(b.2, [CB.writeExpr 2 (Expr.add (Expr.readSig a.2) (Expr.readSig b.2))])] ∧
      (signalGet c.1 2).2 = vnum 2 ∧
      (signalGet (setValue 10 c.1 a.2 (vnum 9)).1 2).2 = vnum 2) := by
  decide

/-! Claim counterexamples on the codec and the signal cells. -/

/-- C1 counterexample: the value `{a: {}}` is built from plain objects only,
its single key has no separator and no bracket-index pattern, yet
`unflattenObject(flattenObject(v))` returns `{}`, not `v`: flattening drops
properties whose value is an empty object. -/
theorem claim_C1_counterexample :
    (let v := vobj [("a", vobj [])]
     parseArraySeg "a" = none ∧ "a".data.contains '.' = false ∧
      unflattenObject (flattenObject v) = vobj [] ∧ unflattenObject (flattenObject v) ≠ v) := by
  decide

/-- C4 counterexample: immediately after creation with the nested initial
value `{a: {b: 1}}`, the stored value is that nested object itself — the
property `a` is object-valued, so `storedValue` is not the flat mapping
produced by `flattenObject`. -/
theorem claim_C4_counterexample :
    (let init := vobj [("a", vobj [("b", vnum 1)])]
     let s := nanoSignal emptyState init
     getStored s.1 s.2 = init ∧ isObjLike (getProp (getStored s.1 s.2) "a") = true ∧
      flattenObject init ≠ init) := by
  decide

/-- The marker shape asserted by the specification:
`{ isSerializedFunction: true, sourceText: string }`. -/
def isSpecMarker (v : JSVal) : Bool :=
  (getProp v "isSerializedFunction" == vbool true) &&
    (match getProp v "sourceText" with
     | vstr _ => true
     | _ => false)

/-- C7 counterexample: for the input `{f: () => 42}`, `flattenObject` stores
at `f` the record `{ __function__: "() => 42" }`, which does not have the
shape `{ isSerializedFunction: true, sourceText: string }` stated by the
claim. -/
theorem claim_C7_counterexample :
    (let flat := flattenObject (vobj [("f", vfun "() => 42")])
     getProp flat "f" = markerObj "() => 42" ∧ isSpecMarker (getProp flat "f") = false) := by
  decide

/-- C6 counterexample: for a signal holding the primitive `5`, the function
updater is invoked with `unflattenObject(5) = {}` rather than the raw
primitive, and a truthy primitive return value `7` does not replace the
stored value — both updates leave the signal holding the empty flat object
`{}`. -/
theorem claim_C6_counterexample :
    (let st : SignalsState := ⟨[vnum 5], none, [], []⟩
     (set st 0 (SetArg.fnArg (fun x => x))).1.sigs = [vobj []] ∧
      (set st 0 (SetArg.fnArg (fun _ => vnum 7))).1.sigs = [vobj []] ∧
      (vobj [] : JSVal) ≠ vnum 5 ∧ (vobj [] : JSVal) ≠ vnum 7) := by
  decide

/-! Frame lemmas about the runtime: expression evaluation touches only the
dependency slot, and callback execution never modifies the effects
registry (only `effect` itself does). -/

theorem evalExpr_effectsMap (e : Expr) :
    ∀ st : SignalsState, (evalExpr st e).1.effectsMap = st.effectsMap := by
  induction e with
  | num n => intro st; rfl
  | readSig sid => intro st; rfl
  | add a b iha ihb => intro st; simp only [evalExpr]; rw [ihb, iha]
  | mul a b iha ihb => intro st; simp only [evalExpr]; rw [ihb, iha]

theorem evalExpr_log (e : Expr) :
    ∀ st : SignalsState, (evalExpr st e).1.log = st.log := by
  induction e with
  | num n => intro st; rfl
  | readSig sid => intro st; rfl
  | add a b iha ihb => intro st; simp only [evalExpr]; rw [ihb, iha]
  | mul a b iha ihb => intro st; simp only [evalExpr]; rw [ihb, iha]

theorem exec_effectsMap :
    ∀ (fuel : Nat) (st : SignalsState) (call : Call),
      (exec fuel st call).1.effectsMap = st.effectsMap := by
  intro fuel
  induction fuel with
  | zero => intro st call; rfl
  | succ f ih =>
      intro st call
      match call with
      | Call.runCB cb =>
          match cb with
          | CB.readSig sid => rfl
          | CB.throwErr m => rfl
          | CB.writeExpr tgt e =>
              simp only [exec]
              rw [ih, evalExpr_effectsMap]
      | Call.runCBs [] => rfl
      | Call.runCBs (c :: rest) =>
          simp only [exec]
          cases h : (exec f st (Call.runCB c)).2 with
          | none => simp only [h]; rw [ih, ih]
          | some e => simp only [h]; rw [ih]
      | Call.setValue sid v =>
          simp only [exec]
          rw [ih]
          rfl
      | Call.runEffects sid =>
          simp only [exec]
          cases h : lookupEffs st.effectsMap sid with
          | none => simp only [h]
          | some cbs => simp only [h]; rw [ih]

theorem exec_log_mono :
    ∀ (fuel : Nat) (st : SignalsState) (call : Call),
      ∃ t, (exec fuel st call).1.log = st.log ++ t := by
  intro fuel
  induction fuel with
  | zero => intro st call; exact ⟨[], by simp [exec]⟩
  | succ f ih =>
      intro st call
      match call with
      | Call.runCB cb =>
          match cb with
          | CB.readSig sid => exact ⟨[CB.readSig sid], rfl⟩
          | CB.throwErr m => exact ⟨[CB.throwErr m], rfl⟩
          | CB.writeExpr tgt e =>
              simp only [exec]
              obtain ⟨t, ht⟩ :=
                ih (evalExpr { st with log := st.log ++ [CB.writeExpr tgt e] } e).1
                  (Call.setValue tgt (evalExpr { st with log := st.log ++ [CB.writeExpr tgt e] } e).2)
              rw [ht, evalExpr_log]
              exact ⟨[CB.writeExpr tgt e] ++ t, by simp⟩
      | Call.runCBs [] => exact ⟨[], by simp [exec]⟩
      | Call.runCBs (c :: rest) =>
          simp only [exec]
          obtain ⟨t1, h1⟩ := ih st (Call.runCB c)
          cases h : (exec f st (Call.runCB c)).2 with
          | none =>
              simp only [h]
              obtain ⟨t2, h2⟩ := ih (exec f st (Call.runCB c)).1 (Call.runCBs rest)
              rw [h2, h1]
              exact ⟨t1 ++ t2, by simp⟩
          | some e => simp only [h]; exact ⟨t1, h1⟩
      | Call.setValue sid v =>
          simp only [exec]
          obtain ⟨t, ht⟩ := ih (_setSignalValue st sid v) (Call.runEffects sid)
          rw [ht]
          exact ⟨t, rfl⟩
      | Call.runEffects sid =>
          simp only [exec]
          cases h : lookupEffs st.effectsMap sid with
          | none => simp only [h]; exact ⟨[], by simp⟩
          | some cbs => simp only [h]; exact ih st (Call.runCBs cbs)

/-- Running a single callback at positive fuel logs that callback first,
followed by the trace of whatever it triggered. -/
theorem exec_runCB_log (fuel : Nat) (st : SignalsState) (c : CB) :
    ∃ t, (exec (fuel + 1) st (Call.runCB c)).1.log = st.log ++ c :: t := by
  match c with
  | CB.readSig sid => exact ⟨[], rfl⟩
  | CB.throwErr m => exact ⟨[], rfl⟩
  | CB.writeExpr tgt e =>
      simp only [exec]
      obtain ⟨t, ht⟩ :=
        exec_log_mono fuel (evalExpr { st with log := st.log ++ [CB.writeExpr tgt e] } e).1
          (Call.setValue tgt (evalExpr { st with log := st.log ++ [CB.writeExpr tgt e] } e).2)
      rw [ht, evalExpr_log]
      exact ⟨t, by simp⟩

/-! Claims C8, C9 and C10. -/

/-- C8: when the callback passed to `effect` throws, the exception is
returned to the caller unchanged and no subscription is performed: the
effects map after the call is exactly the effects map before it. -/
theorem claim_C8 (fuel : Nat) (st : SignalsState) (cb : CB) (msg : String)
    (h : (exec fuel st (Call.runCB cb)).2 = some msg) :
    effect fuel st cb = ((exec fuel st (Call.runCB cb)).1, some msg) ∧
      (effect fuel st cb).1.effectsMap = st.effectsMap := by
  have heq : effect fuel st cb = ((exec fuel st (Call.runCB cb)).1, some msg) := by
    simp only [effect]
    rw [h]
  exact ⟨heq, by rw [heq]; exact exec_effectsMap fuel st (Call.runCB cb)⟩

theorem claim_C8_witness :
    effect 1 emptyState (CB.throwErr "boom")
        = ((exec 1 emptyState (Call.runCB (CB.throwErr "boom"))).1, some "boom") ∧
      (effect 1 emptyState (CB.throwErr "boom")).1.effectsMap = emptyState.effectsMap :=
  claim_C8 1 emptyState (CB.throwErr "boom") "boom" (by decide)

/-- C9: the `set` helper never invokes any subscribed effect callback, for
every argument shape: the invocation log, the effects map and the
dependency slot are all untouched (only the signal cells change). -/
theorem claim_C9 (st : SignalsState) (sid : Nat) (arg : SetArg) :
    (set st sid arg).1.log = st.log ∧ (set st sid arg).1.effectsMap = st.effectsMap ∧
      (set st sid arg).1.changes = st.changes := by
  cases arg with
  | objArg o => exact ⟨rfl, rfl, rfl⟩
  | rawArg v => exact ⟨rfl, rfl, rfl⟩
  | fnArg f =>
      simp only [set]
      split
      · exact ⟨rfl, rfl, rfl⟩
      · exact ⟨rfl, rfl, rfl⟩

theorem exec_runCBs_cons_ok (fuel : Nat) (st : SignalsState) (c : CB) (rest : List CB)
    (h : (exec fuel st (Call.runCB c)).2 = none) :
    exec (fuel + 1) st (Call.runCBs (c :: rest))
      = exec fuel (exec fuel st (Call.runCB c)).1 (Call.runCBs rest) := by
  show (match (exec fuel st (Call.runCB c)).2 with
        | none => exec fuel (exec fuel st (Call.runCB c)).1 (Call.runCBs rest)
        | some e => ((exec fuel st (Call.runCB c)).1, some e)) = _
  rw [h]

theorem exec_runCBs_cons_err (fuel : Nat) (st : SignalsState) (c : CB) (rest : List CB)
    (msg : String) (h : (exec fuel st (Call.runCB c)).2 = some msg) :
    exec (fuel + 1) st (Call.runCBs (c :: rest)) = ((exec fuel st (Call.runCB c)).1, some msg) := by
  show (match (exec fuel st (Call.runCB c)).2 with
        | none => exec fuel (exec fuel st (Call.runCB c)).1 (Call.runCBs rest)
        | some e => ((exec fuel st (Call.runCB c)).1, some e)) = _
  rw [h]

/-- Callbacks run by `_runEffects` appear in the invocation log, in
subscription order, whenever the whole notification completes without an
exception. -/
theorem runCBs_sublist :
    ∀ (cbs : List CB) (fuel : Nat) (st : SignalsState),
      (exec fuel st (Call.runCBs cbs)).2 = none →
      cbs.Sublist ((exec fuel st (Call.runCBs cbs)).1.log.drop st.log.length) := by
  intro cbs
  induction cbs with
  | nil =>
      intro fuel st h
      match fuel with
      | 0 => simp [exec] at h
      | f + 1 => simp [exec]
  | cons c rest ih =>
      intro fuel st h
      match fuel with
      | 0 => simp [exec] at h
      | 1 => simp [exec] at h
      | g + 2 =>
          cases h2 : (exec (g + 1) st (Call.runCB c)).2 with
          | some e =>
              rw [exec_runCBs_cons_err (g + 1) st c rest e h2] at h
              simp at h
          | none =>
              rw [exec_runCBs_cons_ok (g + 1) st c rest h2] at h ⊢
              obtain ⟨t1, ht1⟩ := exec_runCB_log g st c
              have hrest := ih (g + 1) (exec (g + 1) st (Call.runCB c)).1 h
              obtain ⟨t2, ht2⟩ :=
                exec_log_mono (g + 1) (exec (g + 1) st (Call.runCB c)).1 (Call.runCBs rest)
              rw [ht2, ht1] at hrest ⊢
              have hdrop1 : ((st.log ++ c :: t1) ++ t2).drop (st.log ++ c :: t1).length = t2 :=
                List.drop_left _ _
              rw [hdrop1] at hrest
              have hshape : (st.log ++ c :: t1) ++ t2 = st.log ++ (c :: (t1 ++ t2)) := by simp
              rw [hshape, List.drop_left]
              exact (hrest.trans (List.sublist_append_right t1 t2)).cons₂ c

/-- C10: every write through the value setter notifies every subscribed
callback, in subscription order, with no equality check against the stored
value: for any assigned value `v` whatsoever (in particular one equal to
the current value), if the notification completes without an exception the
subscription list occurs in order in the freshly appended part of the
invocation log. -/
theorem claim_C10 (fuel : Nat) (st : SignalsState) (sid : Nat) (v : JSVal) (cbs : List CB)
    (hl : lookupEffs st.effectsMap sid = some cbs)
    (h : (setValue fuel st sid v).2 = none) :
    cbs.Sublist ((setValue fuel st sid v).1.log.drop st.log.length) := by
  match fuel with
  | 0 => simp [setValue, exec] at h
  | 1 => simp [setValue, exec] at h
  | g + 2 =>
      have hl' : lookupEffs (_setSignalValue st sid v).effectsMap sid = some cbs := hl
      have e2 : setValue (g + 2) st sid v
          = exec g (_setSignalValue st sid v) (Call.runCBs cbs) := by
        show exec (g + 1) (_setSignalValue st sid v) (Call.runEffects sid)
            = exec g (_setSignalValue st sid v) (Call.runCBs cbs)
        simp only [exec]
        rw [hl']
      rw [e2] at h ⊢
      exact runCBs_sublist cbs g (_setSignalValue st sid v) h

def c10State : SignalsState := ⟨[vnum 5], none, [(0, [CB.readSig 0])], []⟩

theorem claim_C10_witness :
    [CB.readSig 0].Sublist ((setValue 10 c10State 0 (vnum 5)).1.log.drop c10State.log.length) :=
  claim_C10 10 c10State 0 (vnum 5) [CB.readSig 0] (by decide) (by decide)

/-! The shape of flatten output: every stored value is a non-object
(primitive, or a raw function for function-valued array elements) or the
single-field function marker.  This is the amended storage invariant. -/

/-- The exact record shape `{ __function__: <string> }` produced for
function-valued properties. -/
def isMarkerShape : JSVal → Bool
  | vobj [(k, vstr _)] => k == "__function__"
  | _ => false

/-- A legal value of a flat mapping: not an object or array, except for the
function marker. -/
def okFlatVal (w : JSVal) : Bool := !isObjLike w || isMarkerShape w

def flatOk (m : List (String × JSVal)) : Bool := m.all (fun p => okFlatVal p.2)

theorem flatOk_assignKV {m : List (String × JSVal)} {k : String} {v : JSVal}
    (hm : flatOk m = true) (hv : okFlatVal v = true) : flatOk (assignKV m k v) = true := by
  unfold assignKV
  split
  · simp only [flatOk, List.all_eq_true] at hm ⊢
    intro p hp
    simp only [List.mem_map] at hp
    obtain ⟨q, hq, rfl⟩ := hp
    by_cases hqk : q.1 = k
    · simpa [hqk] using hv
    · simpa [hqk] using hm q hq
  · simp only [flatOk, List.all_eq_true] at hm ⊢
    intro p hp
    rcases List.mem_append.mp hp with h1 | h1
    · exact hm p h1
    · rcases List.mem_singleton.mp h1 with rfl
      exact hv

theorem flatOk_objAssign :
    ∀ (s t : List (String × JSVal)), flatOk t = true → flatOk s = true →
      flatOk (objAssign t s) = true := by
  intro s
  induction s with
  | nil => intro t ht _; exact ht
  | cons p rest ih =>
      intro t ht hs
      simp only [flatOk, List.all_eq_true] at hs
      have hv : okFlatVal p.2 = true := hs p (List.mem_cons_self p rest)
      have hrest : flatOk rest = true := by
        simp only [flatOk, List.all_eq_true]
        intro q hq
        exact hs q (List.mem_cons_of_mem p hq)
      exact ih (assignKV t p.1 p.2) (flatOk_assignKV ht hv) hrest

theorem flattenStrChars_ok :
    ∀ (cs : List Char) (i : Nat) (pk sep : String) (acc : List (String × JSVal)),
      flatOk acc = true → flatOk (flattenStrChars cs i pk sep acc) = true := by
  intro cs
  induction cs with
  | nil => intro i pk sep acc h; exact h
  | cons c rest ih =>
      intro i pk sep acc h
      exact ih (i + 1) pk sep _ (flatOk_assignKV h rfl)

mutual
theorem flattenTop_ok : ∀ (v : JSVal) (pk sep : String), flatOk (flattenTop v pk sep) = true
  | vobj fields, pk, sep => flattenFields_ok fields pk sep [] rfl
  | varr es, pk, sep => flattenArrTop_ok es 0 pk sep [] rfl
  | vstr s, pk, sep => flattenStrChars_ok s.data 0 pk sep [] rfl
  | vundef, _, _ => rfl
  | vnull, _, _ => rfl
  | vbool _, _, _ => rfl
  | vnum _, _, _ => rfl
  | vfun _, _, _ => rfl

theorem flattenFields_ok :
    ∀ (l : List (String × JSVal)) (pk sep : String) (acc : List (String × JSVal)),
      flatOk acc = true → flatOk (flattenFields l pk sep acc) = true
  | [], _, _, _, h => h
  | (key, value) :: rest, pk, sep, acc, h =>
      flattenFields_ok rest pk sep _ (flattenEntry_ok value (joinKey pk sep key) sep acc h)

theorem flattenArrTop_ok :
    ∀ (l : List JSVal) (i : Nat) (pk sep : String) (acc : List (String × JSVal)),
      flatOk acc = true → flatOk (flattenArrTop l i pk sep acc) = true
  | [], _, _, _, _, h => h
  | e :: rest, i, pk, sep, acc, h =>
      flattenArrTop_ok rest (i + 1) pk sep _
        (flattenEntry_ok e (joinKey pk sep (natToString i)) sep acc h)

theorem flattenEntry_ok :
    ∀ (v : JSVal) (ck sep : String) (acc : List (String × JSVal)),
      flatOk acc = true → flatOk (flattenEntry v ck sep acc) = true
  | vobj gf, ck, sep, acc, h => flatOk_objAssign _ acc h (flattenFields_ok gf ck sep [] rfl)
  | varr es, ck, sep, acc, h => flattenElems_ok es 0 ck sep acc h
  | vfun src, ck, _, acc, h => flatOk_assignKV h rfl
  | vundef, _, _, _, h => flatOk_assignKV h rfl
  | vnull, _, _, _, h => flatOk_assignKV h rfl
  | vbool _, _, _, _, h => flatOk_assignKV h rfl
  | vnum _, _, _, _, h => flatOk_assignKV h rfl
  | vstr _, _, _, _, h => flatOk_assignKV h rfl

theorem flattenElems_ok :
    ∀ (l : List JSVal) (i : Nat) (ck sep : String) (acc : List (String × JSVal)),
      flatOk acc = true → flatOk (flattenElems l i ck sep acc) = true
  | [], _, _, _, _, h => h
  | vobj gf :: rest, i, ck, sep, acc, h =>
      flattenElems_ok rest (i + 1) ck sep _
        (flatOk_objAssign _ acc h (flattenFields_ok gf (ck ++ "[" ++ natToString i ++ "]") sep [] rfl))
  | varr es2 :: rest, i, ck, sep, acc, h =>
      flattenElems_ok rest (i + 1) ck sep _
        (flatOk_objAssign _ acc h (flattenArrTop_ok es2 0 (ck ++ "[" ++ natToString i ++ "]") sep [] rfl))
  | vfun src :: rest, i, ck, sep, acc, h =>
      flattenElems_ok rest (i + 1) ck sep _ (flatOk_assignKV h rfl)
  | vundef :: rest, i, ck, sep, acc, h =>
      flattenElems_ok rest (i + 1) ck sep _ (flatOk_assignKV h rfl)
  | vnull :: rest, i, ck, sep, acc, h =>
      flattenElems_ok rest (i + 1) ck sep _ (flatOk_assignKV h rfl)
  | vbool b :: rest, i, ck, sep, acc, h =>
      flattenElems_ok rest (i + 1) ck sep _ (flatOk_assignKV h rfl)
  | vnum n :: rest, i, ck, sep, acc, h =>
      flattenElems_ok rest (i + 1) ck sep _ (flatOk_assignKV h rfl)
  | vstr t :: rest, i, ck, sep, acc, h =>
      flattenElems_ok rest (i + 1) ck sep _ (flatOk_assignKV h rfl)
end

/-- Replace an element within bounds, then read it back with `getD`. -/
theorem getD_set_self :
    ∀ (l : List JSVal) (i : Nat) (x d : JSVal), i < l.length → (l.set i x).getD i d = x := by
  intro l
  induction l with
  | nil => intro i x d h; simp at h
  | cons a rest ih =>
      intro i x d h
      match i with
      | 0 => rfl
      | j + 1 => exact ih j x d (by simpa using h)

/-- C4, amended: the creation path stores the initial value as given (see
the counterexample), but every write through `_setSignalValue` collapses a
non-null object value to its `flattenObject` image before storage, and that
image is a single-level mapping: every entry is a non-object value or the
function marker, never a nested object or array. -/
theorem claim_C4 (st : SignalsState) (sid : Nat) (v : JSVal)
    (hobj : isObjLike v = true) (hlen : sid < st.sigs.length) :
    (_setSignalValue st sid v).sigs.getD sid vundef = vobj (flattenTop v "" ".") ∧
      flatOk (flattenTop v "" ".") = true := by
  constructor
  · show (st.sigs.set sid (if isObjLike v then flattenObject v "" "." else v)).getD sid vundef = _
    rw [hobj]
    exact getD_set_self st.sigs sid _ vundef hlen
  · exact flattenTop_ok v "" "."

theorem claim_C4_witness :
    ((_setSignalValue ⟨[vnum 0], none, [], []⟩ 0
        (vobj [("a", vobj [("b", vnum 1)]), ("f", vfun "x"), ("l", varr [vnum 2])])).sigs.getD 0 vundef
      = vobj (flattenTop (vobj [("a", vobj [("b", vnum 1)]), ("f", vfun "x"), ("l", varr [vnum 2])]) "" ".")) ∧
      flatOk (flattenTop (vobj [("a", vobj [("b", vnum 1)]), ("f", vfun "x"), ("l", varr [vnum 2])]) "" ".") = true :=
  claim_C4 ⟨[vnum 0], none, [], []⟩ 0
    (vobj [("a", vobj [("b", vnum 1)]), ("f", vfun "x"), ("l", varr [vnum 2])]) (by decide) (by decide)

/-! C6, amended. -/

/-- Primitive values that spread to nothing and flatten to nothing:
`undefined`, `null`, booleans and numbers (strings spread into their
characters and are excluded here). -/
def isPlainPrim : JSVal → Bool
  | vundef => true
  | vnull => true
  | vbool _ => true
  | vnum _ => true
  | _ => false

theorem flattenTop_plainPrim {v : JSVal} (h : isPlainPrim v = true) :
    ∀ pk sep, flattenTop v pk sep = [] := by
  cases v <;> simp [isPlainPrim] at h <;> intro pk sep <;> rfl

theorem spreadPairs_plainPrim {v : JSVal} (h : isPlainPrim v = true) : spreadPairs v = [] := by
  cases v <;> simp [isPlainPrim] at h <;> rfl

/-- C6, amended: the function updater is invoked with
`unflattenObject(storedValue)` — the reconstructed object when storage is a
flat mapping, but the empty object `{}` when storage is a primitive, never
the raw primitive.  A truthy return value is merged through the object path
(`_setSignalObject`), so a truthy primitive return `r` is flattened to
nothing and merged into the spread of the stored value: for a stored
non-string primitive the signal ends up holding the empty flat object `{}`,
and `r` itself is never stored. -/
theorem claim_C6 (st : SignalsState) (sid : Nat) (f : JSVal → JSVal) (r : JSVal)
    (hstored : isPlainPrim (getStored st sid) = true) (hr : isPlainPrim r = true)
    (htr : truthy r = true) (hlen : sid < st.sigs.length) :
    set st sid (SetArg.fnArg f)
        = set st sid (SetArg.fnArg (fun _ => f (unflattenObject (getStored st sid) "."))) ∧
      (set st sid (SetArg.fnArg (fun _ => r))).1.sigs.getD sid vundef = vobj [] ∧
      vobj [] ≠ r := by
  refine ⟨rfl, ?_, ?_⟩
  · show ((if truthy r then (_setSignalObject st sid r, vbool true)
          else ((_setSignalValue st sid
            (vobj (objAssign (spreadPairs (getStored st sid))
              (flattenTop (unflattenObject (getStored st sid) ".") "" ".")))), vbool true)).1.sigs.getD
        sid vundef) = vobj []
    rw [htr]
    show (_setSignalObject st sid r).sigs.getD sid vundef = vobj []
    unfold _setSignalObject
    rw [flattenTop_plainPrim hr, spreadPairs_plainPrim hstored]
    show (st.sigs.set sid
        (if isObjLike (vobj (objAssign [] [])) then flattenObject (vobj (objAssign [] [])) "" "."
         else vobj (objAssign [] []))).getD sid vundef = vobj []
    exact getD_set_self st.sigs sid _ vundef hlen
  · cases r <;> simp only [isPlainPrim] at hr <;> first
      | exact fun hc => JSVal.noConfusion hc
      | exact absurd hr (by decide)

/-! Machinery for the round-trip theorem (claims C1 and C7).

The plan: a structured path type `Seg` captures the two kinds of path
segments of the codec — a plain property segment, rendered as the key
itself, and an array segment `name[index]`.  A canonical, append-based
description `pathsFields` of the flatten output is proved equal to
`flattenTop` for collision-free values, the string-level splitting and
segment parsing of `unflattenObject` is proved to recover the structured
paths, and a tree-level induction shows that inserting the canonical paths
rebuilds the original value. -/

theorem parseDigits_append (ds : List Char) (c : Char) :
    parseDigits (ds ++ [c]) = 10 * parseDigits ds + (c.toNat - 48) := by
  unfold parseDigits
  rw [List.foldl_append]
  rfl

theorem isDigit_ofNat_digit {d : Nat} (h : d < 10) : (Char.ofNat (48 + d)).isDigit = true := by
  interval_cases d <;> decide

theorem toNat_ofNat_digit {d : Nat} (h : d < 10) : (Char.ofNat (48 + d)).toNat = 48 + d := by
  interval_cases d <;> decide

theorem decAux_spec :
    ∀ (fuel n : Nat), n < fuel →
      decAux fuel n ≠ [] ∧ (∀ c ∈ decAux fuel n, c.isDigit = true) ∧
        parseDigits (decAux fuel n) = n := by
  intro fuel
  induction fuel with
  | zero => intro n h; omega
  | succ f ih =>
      intro n h
      by_cases h10 : n < 10
      · refine ⟨by simp [decAux, h10], ?_, ?_⟩
        · intro c hc
          simp only [decAux, if_pos h10, List.mem_singleton] at hc
          subst hc
          exact isDigit_ofNat_digit h10
        · simp only [decAux, if_pos h10]
          show parseDigits ([] ++ [Char.ofNat (48 + n)]) = n
          rw [parseDigits_append, toNat_ofNat_digit h10]
          simp [parseDigits]
      · have hda : decAux (f + 1) n = decAux f (n / 10) ++ [Char.ofNat (48 + n % 10)] := by
          simp [decAux, h10]
        have hlt : n / 10 < f := by
          have hdn : n / 10 < n := Nat.div_lt_self (by omega) (by omega)
          omega
        obtain ⟨hne, hdig, hval⟩ := ih (n / 10) hlt
        refine ⟨by simp [hda], ?_, ?_⟩
        · intro c hc
          rw [hda] at hc
          rcases List.mem_append.mp hc with h1 | h1
          · exact hdig c h1
          · rcases List.mem_singleton.mp h1 with rfl
            exact isDigit_ofNat_digit (Nat.mod_lt n (by omega))
        · rw [hda, parseDigits_append, hval, toNat_ofNat_digit (Nat.mod_lt n (by omega))]
          omega

theorem natToString_spec (n : Nat) :
    (natToString n).data ≠ [] ∧ (∀ c ∈ (natToString n).data, c.isDigit = true) ∧
      parseDigits (natToString n).data = n :=
  decAux_spec (n + 1) n (by omega)

theorem natToString_inj {m n : Nat} (h : natToString m = natToString n) : m = n := by
  have hm := (natToString_spec m).2.2
  have hn := (natToString_spec n).2.2
  rw [h, hn] at hm
  omega

theorem isDigit_ne_dot {c : Char} (h : c.isDigit = true) : c ≠ '.' := by
  intro hc
  subst hc
  exact absurd h (by decide)

theorem isDigit_ne_lbracket {c : Char} (h : c.isDigit = true) : c ≠ '[' := by
  intro hc
  subst hc
  exact absurd h (by decide)

/-! `parseArraySeg` recovers a rendered array segment exactly. -/

theorem takeWhile_all_append {α : Type} (p : α → Bool) (l1 : List α) (c : α) (l2 : List α)
    (h1 : ∀ x ∈ l1, p x = true) (hc : p c = false) :
    (l1 ++ c :: l2).takeWhile p = l1 := by
  induction l1 with
  | nil => simp [List.takeWhile, hc]
  | cons a rest ih =>
      have ha : p a = true := h1 a (List.mem_cons_self a rest)
      simp only [List.cons_append, List.takeWhile, ha]
      show a :: (rest ++ c :: l2).takeWhile p = a :: rest
      rw [ih (fun x hx => h1 x (List.mem_cons_of_mem a hx))]

theorem data_append (s t : String) : (s ++ t).data = s.data ++ t.data := by
  cases s
  cases t
  rfl

theorem mk_data (s : String) : String.mk s.data = s := rfl

theorem string_ext {s t : String} (h : s.data = t.data) : s = t := by
  cases s
  cases t
  exact congrArg String.mk h

theorem parseArraySegL_bracket (cs bodyRev : List Char) (h : cs.reverse = ']' :: bodyRev) :
    parseArraySegL cs
      = (if (bodyRev.takeWhile Char.isDigit).isEmpty then none
         else
           match bodyRev.drop (bodyRev.takeWhile Char.isDigit).length with
           | b :: restRev =>
               if b = '[' then
                 some (String.mk restRev.reverse,
                   parseDigits (bodyRev.takeWhile Char.isDigit).reverse)
               else none
           | [] => none) := by
  unfold parseArraySegL
  rw [h]
  simp

theorem parseArraySeg_render (k : String) (i : Nat) :
    parseArraySeg (k ++ "[" ++ natToString i ++ "]") = some (k, i) := by
  obtain ⟨hne, hdig, hval⟩ := natToString_spec i
  have hdata : (k ++ "[" ++ natToString i ++ "]").data
      = (k.data ++ '[' :: (natToString i).data) ++ [']'] := by
    rw [data_append, data_append, data_append]
    simp
  have hrev : ((k ++ "[" ++ natToString i ++ "]").data).reverse
      = ']' :: ((natToString i).data.reverse ++ '[' :: k.data.reverse) := by
    rw [hdata]
    simp
  have hstep := parseArraySegL_bracket _ _ hrev
  have htw : ((natToString i).data.reverse ++ '[' :: k.data.reverse).takeWhile Char.isDigit
      = (natToString i).data.reverse := by
    refine takeWhile_all_append Char.isDigit _ '[' _ ?_ (by decide)
    intro x hx
    exact hdig x (List.mem_reverse.mp hx)
  have hnem : (natToString i).data.reverse.isEmpty = false := by
    cases hc : (natToString i).data.reverse with
    | nil => exact absurd (by simpa using hc) hne
    | cons a l => rfl
  have hdrop : ((natToString i).data.reverse ++ '[' :: k.data.reverse).drop
      (natToString i).data.reverse.length = '[' :: k.data.reverse := List.drop_left _ _
  show parseArraySegL (k ++ "[" ++ natToString i ++ "]").data = some (k, i)
  rw [hstep, htw, hnem]
  simp only [Bool.false_eq_true, if_false]
  rw [hdrop]
  simp only [List.reverse_reverse, if_pos rfl]
  rw [hval, mk_data]
  simp

/-! Splitting on the default separator: `jsSplit` recovers the parts of a
dot-joined list of dot-free character lists. -/

/-- The characters contributed by the later parts of a dot-joined list:
each part preceded by one dot. -/
def dotTail : List (List Char) → List Char
  | [] => []
  | q :: qs => '.' :: (q ++ dotTail qs)

/-- Dot-joined concatenation of character lists. -/
def dotJoinC : List (List Char) → List Char
  | [] => []
  | q :: qs => q ++ dotTail qs

theorem splitFuel_nil (f : Nat) (sep acc : List Char) : splitFuel f sep [] acc = [acc.reverse] := by
  cases f <;> rfl

theorem splitFuel_dot_cons (f : Nat) (c : Char) (rest acc : List Char) :
    splitFuel (f + 1) ['.'] (c :: rest) acc
      = if c = '.' then acc.reverse :: splitFuel f ['.'] rest []
        else splitFuel f ['.'] rest (c :: acc) := by
  show (if ['.'].isPrefixOf (c :: rest) = true then
          acc.reverse :: splitFuel f ['.'] ((c :: rest).drop ['.'].length) []
        else splitFuel f ['.'] rest (c :: acc)) = _
  by_cases hc : c = '.'
  · subst hc
    have hp : ['.'].isPrefixOf ('.' :: rest) = true := by simp [List.isPrefixOf]
    rw [hp, if_pos rfl, if_pos rfl]
    rfl
  · have hp : ['.'].isPrefixOf (c :: rest) = false := by
      simp [List.isPrefixOf]
      exact fun hcc => absurd hcc.symm hc
    rw [hp]
    simp only [Bool.false_eq_true, if_false]
    rw [if_neg hc]

theorem splitFuel_consume :
    ∀ (p : List Char) (fuel : Nat) (cs acc : List Char),
      '.' ∉ p → p.length + cs.length < fuel →
      splitFuel fuel ['.'] (p ++ cs) acc = splitFuel (fuel - p.length) ['.'] cs (p.reverse ++ acc) := by
  intro p
  induction p with
  | nil => intro fuel cs acc h hb; simp
  | cons c p' ih =>
      intro fuel cs acc h hb
      match fuel with
      | 0 => omega
      | f + 1 =>
          have hc : c ≠ '.' := fun hcc => h (hcc ▸ List.mem_cons_self c p')
          rw [List.cons_append, splitFuel_dot_cons, if_neg hc]
          have h' : '.' ∉ p' := fun hm => h (List.mem_cons_of_mem c hm)
          have hb' : p'.length + cs.length < f := by
            simp only [List.length_cons] at hb
            omega
          rw [ih f cs (c :: acc) h' hb']
          rw [show f + 1 - (c :: p').length = f - p'.length by simp,
            show (c :: p').reverse ++ acc = p'.reverse ++ c :: acc by simp]

theorem splitFuel_parts :
    ∀ (parts : List (List Char)) (p acc : List Char) (fuel : Nat),
      '.' ∉ p → (∀ q ∈ parts, '.' ∉ q) → p.length + (dotTail parts).length < fuel →
      splitFuel fuel ['.'] (p ++ dotTail parts) acc = (acc.reverse ++ p) :: parts := by
  intro parts
  induction parts with
  | nil =>
      intro p acc fuel hp _ hb
      rw [show dotTail [] = [] from rfl] at hb ⊢
      rw [List.append_nil]
      rw [show (p : List Char) = p ++ [] by simp, splitFuel_consume p fuel [] acc hp (by simpa using hb)]
      rw [splitFuel_nil]
      simp
  | cons q qs ih =>
      intro p acc fuel hp hq hb
      rw [show dotTail (q :: qs) = '.' :: (q ++ dotTail qs) from rfl] at hb ⊢
      have hb0 : p.length + ('.' :: (q ++ dotTail qs)).length < fuel := by
        simpa using hb
      rw [splitFuel_consume p fuel ('.' :: (q ++ dotTail qs)) acc hp hb0]
      have hfp : fuel - p.length = (fuel - p.length - 1) + 1 := by
        simp only [List.length_cons, List.length_append] at hb0
        omega
      rw [hfp, splitFuel_dot_cons, if_pos rfl]
      have hbq : q.length + (dotTail qs).length < fuel - p.length - 1 := by
        simp only [List.length_cons, List.length_append] at hb0
        omega
      rw [ih q [] (fuel - p.length - 1) (hq q (List.mem_cons_self q qs))
        (fun r hr => hq r (List.mem_cons_of_mem q hr)) hbq]
      simp

theorem dot_data : ("." : String).data = ['.'] := rfl

theorem jsSplit_dotJoin (parts : List (List Char)) (hne : parts ≠ [])
    (hdf : ∀ q ∈ parts, '.' ∉ q) :
    jsSplit (String.mk (dotJoinC parts)) "." = parts.map String.mk := by
  match parts, hne with
  | p :: qs, _ =>
      rw [show dotJoinC (p :: qs) = p ++ dotTail qs from rfl]
      unfold jsSplit
      rw [if_neg (by decide : ¬(("." : String) = ""))]
      rw [dot_data]
      rw [show (String.mk (p ++ dotTail qs)).data = p ++ dotTail qs from rfl]
      rw [splitFuel_parts qs p [] ((p ++ dotTail qs).length + 1)
        (hdf p (List.mem_cons_self p qs))
        (fun r hr => hdf r (List.mem_cons_of_mem p hr))
        (by simp)]
      simp

theorem dotJoinC_inj :
    ∀ (p1 p2 : List (List Char)), p1 ≠ [] → p2 ≠ [] →
      (∀ q ∈ p1, '.' ∉ q) → (∀ q ∈ p2, '.' ∉ q) →
      dotJoinC p1 = dotJoinC p2 → p1 = p2 := by
  intro p1 p2 h1 h2 hd1 hd2 heq
  match p1, p2, h1, h2 with
  | a :: as, b :: bs, _, _ =>
      have e1 : splitFuel ((dotJoinC (a :: as)).length + 1) ['.'] (dotJoinC (a :: as)) []
          = a :: as := by
        rw [show dotJoinC (a :: as) = a ++ dotTail as from rfl]
        rw [splitFuel_parts as a [] _ (hd1 a (List.mem_cons_self a as))
          (fun r hr => hd1 r (List.mem_cons_of_mem a hr)) (by simp)]
        simp
      have e2 : splitFuel ((dotJoinC (b :: bs)).length + 1) ['.'] (dotJoinC (b :: bs)) []
          = b :: bs := by
        rw [show dotJoinC (b :: bs) = b ++ dotTail bs from rfl]
        rw [splitFuel_parts bs b [] _ (hd2 b (List.mem_cons_self b bs))
          (fun r hr => hd2 r (List.mem_cons_of_mem b hr)) (by simp)]
        simp
      rw [← e1, ← e2, heq]

/-! Structured path segments and their rendering as key strings. -/

/-- One segment of a flattened key: a plain property, or an array access
`name[index]`. -/
inductive Seg where
  | sprop (k : String)
  | sidx (k : String) (i : Nat)
deriving DecidableEq

def renderSeg : Seg → String
  | Seg.sprop k => k
  | Seg.sidx k i => k ++ "[" ++ natToString i ++ "]"

def renderSegC (s : Seg) : List Char := (renderSeg s).data

/-- A collision-free key: nonempty, without the separator, and not of the
bracket-index shape recognised by `unflattenObject`. -/
def wfKeyB (k : String) : Bool :=
  (k != "") && !(k.data.contains '.') && (parseArraySeg k).isNone

def wfSeg : Seg → Bool
  | Seg.sprop k => wfKeyB k
  | Seg.sidx k _ => wfKeyB k

/-- The key string of a structured path under a parent prefix, combined the
way `flattenObject` chains `currentKey`. -/
def keyOfPath (pk : String) (p : List Seg) : String :=
  p.foldl (fun s seg => joinKey s "." (renderSeg seg)) pk

theorem data_ne_nil {s : String} (h : s.data ≠ []) : s ≠ "" := fun hc => h (hc ▸ rfl)

theorem wfKeyB_facts {k : String} (h : wfKeyB k = true) :
    k.data ≠ [] ∧ '.' ∉ k.data ∧ parseArraySeg k = none := by
  unfold wfKeyB at h
  simp only [Bool.and_eq_true, bne_iff_ne, ne_eq, Bool.not_eq_true, Option.isNone_iff_eq_none]
    at h
  obtain ⟨⟨hne, hcon⟩, hpar⟩ := h
  refine ⟨?_, ?_, hpar⟩
  · intro hd
    exact hne (string_ext (by simpa using hd))
  · intro hm
    simp only [List.contains_eq_any_beq, Bool.not_eq_true', List.any_eq_false] at hcon
    have := hcon '.' hm
    simp at this

theorem renderIdx_data (k : String) (i : Nat) :
    (k ++ "[" ++ natToString i ++ "]").data = (k.data ++ '[' :: (natToString i).data) ++ [']'] := by
  rw [data_append, data_append, data_append]
  simp

theorem renderSegC_wf {s : Seg} (h : wfSeg s = true) :
    renderSegC s ≠ [] ∧ '.' ∉ renderSegC s := by
  cases s with
  | sprop k =>
      obtain ⟨hne, hdot, _⟩ := wfKeyB_facts h
      exact ⟨hne, hdot⟩
  | sidx k i =>
      obtain ⟨hne, hdot, _⟩ := wfKeyB_facts h
      obtain ⟨_, hdig, _⟩ := natToString_spec i
      constructor
      · show (k ++ "[" ++ natToString i ++ "]").data ≠ []
        rw [renderIdx_data]
        simp
      · show '.' ∉ (k ++ "[" ++ natToString i ++ "]").data
        rw [renderIdx_data]
        intro hm
        rcases List.mem_append.mp hm with h1 | h1
        · rcases List.mem_append.mp h1 with h2 | h2
          · exact hdot h2
          · rcases List.mem_cons.mp h2 with h3 | h3
            · exact absurd h3.symm (by decide)
            · exact isDigit_ne_dot (hdig _ h3) rfl
        · rcases List.mem_singleton.mp h1 with h2
          exact absurd h2 (by decide)

theorem renderSeg_inj {s1 s2 : Seg} (h1 : wfSeg s1 = true) (h2 : wfSeg s2 = true)
    (heq : renderSeg s1 = renderSeg s2) : s1 = s2 := by
  cases s1 with
  | sprop k1 =>
      cases s2 with
      | sprop k2 => exact congrArg Seg.sprop heq
      | sidx k2 i2 =>
          obtain ⟨_, _, hpar⟩ := wfKeyB_facts h1
          have : parseArraySeg (renderSeg (Seg.sprop k1)) = none := hpar
          rw [heq] at this
          rw [show renderSeg (Seg.sidx k2 i2) = k2 ++ "[" ++ natToString i2 ++ "]" from rfl,
            parseArraySeg_render] at this
          exact absurd this (by simp)
  | sidx k1 i1 =>
      cases s2 with
      | sprop k2 =>
          obtain ⟨_, _, hpar⟩ := wfKeyB_facts h2
          have : parseArraySeg (renderSeg (Seg.sprop k2)) = none := hpar
          rw [← heq] at this
          rw [show renderSeg (Seg.sidx k1 i1) = k1 ++ "[" ++ natToString i1 ++ "]" from rfl,
            parseArraySeg_render] at this
          exact absurd this (by simp)
      | sidx k2 i2 =>
          have hp1 : parseArraySeg (renderSeg (Seg.sidx k1 i1)) = some (k1, i1) :=
            parseArraySeg_render k1 i1
          have hp2 : parseArraySeg (renderSeg (Seg.sidx k2 i2)) = some (k2, i2) :=
            parseArraySeg_render k2 i2
          rw [heq, hp2] at hp1
          obtain ⟨hk, hi⟩ := Prod.mk.injEq .. ▸ Option.some.inj hp1
          rw [hk, hi]

theorem keyOfPath_cons (pk : String) (s : Seg) (rest : List Seg) :
    keyOfPath pk (s :: rest) = keyOfPath (joinKey pk "." (renderSeg s)) rest := rfl

theorem joinKey_data_ne (pk : String) (hpk : pk ≠ "") (r : String) :
    (joinKey pk "." r).data = pk.data ++ '.' :: r.data := by
  unfold joinKey
  rw [if_neg hpk, data_append, data_append, dot_data]
  simp

theorem keyOfPath_data :
    ∀ (p : List Seg) (pk : String), pk ≠ "" → (∀ s ∈ p, wfSeg s = true) →
      (keyOfPath pk p).data = pk.data ++ dotTail (p.map renderSegC) := by
  intro p
  induction p with
  | nil => intro pk h _; simp [keyOfPath, dotTail]
  | cons s rest ih =>
      intro pk hpk hwf
      rw [keyOfPath_cons]
      obtain ⟨hsne, _⟩ := renderSegC_wf (hwf s (List.mem_cons_self s rest))
      have hjne : joinKey pk "." (renderSeg s) ≠ "" := by
        apply data_ne_nil
        rw [joinKey_data_ne pk hpk]
        simp
      rw [ih (joinKey pk "." (renderSeg s)) hjne (fun t ht => hwf t (List.mem_cons_of_mem s ht))]
      rw [joinKey_data_ne pk hpk]
      show pk.data ++ '.' :: (renderSeg s).data ++ dotTail (rest.map renderSegC)
          = pk.data ++ dotTail ((s :: rest).map renderSegC)
      rw [show dotTail ((s :: rest).map renderSegC)
          = '.' :: (renderSegC s ++ dotTail (rest.map renderSegC)) from rfl]
      simp [renderSegC]

theorem keyOfPath_data_empty :
    ∀ (p : List Seg), p ≠ [] → (∀ s ∈ p, wfSeg s = true) →
      (keyOfPath "" p).data = dotJoinC (p.map renderSegC) := by
  intro p hne hwf
  match p, hne with
  | s :: rest, _ =>
      have hj : joinKey "" "." (renderSeg s) = renderSeg s := by simp [joinKey]
      rw [keyOfPath_cons, hj]
      obtain ⟨hsne, _⟩ := renderSegC_wf (hwf s (List.mem_cons_self s rest))
      have hrs : renderSeg s ≠ "" := data_ne_nil hsne
      rw [keyOfPath_data rest (renderSeg s) hrs (fun t ht => hwf t (List.mem_cons_of_mem s ht))]
      rfl

theorem mapRender_inj :
    ∀ (p1 p2 : List Seg), (∀ s ∈ p1, wfSeg s = true) → (∀ s ∈ p2, wfSeg s = true) →
      p1.map renderSegC = p2.map renderSegC → p1 = p2 := by
  intro p1
  induction p1 with
  | nil =>
      intro p2 _ _ h
      cases p2 with
      | nil => rfl
      | cons t r2 => simp at h
  | cons s rest ih =>
      intro p2 hw1 hw2 h
      cases p2 with
      | nil => simp at h
      | cons t rest2 =>
          simp only [List.map_cons, List.cons.injEq] at h
          have hs : s = t :=
            renderSeg_inj (hw1 s (List.mem_cons_self s rest)) (hw2 t (List.mem_cons_self t rest2))
              (string_ext h.1)
          rw [hs, ih rest2 (fun u hu => hw1 u (List.mem_cons_of_mem s hu))
            (fun u hu => hw2 u (List.mem_cons_of_mem t hu)) h.2]

theorem keyOfPath_inj (pk : String) :
    ∀ (p1 p2 : List Seg), p1 ≠ [] → p2 ≠ [] →
      (∀ s ∈ p1, wfSeg s = true) → (∀ s ∈ p2, wfSeg s = true) →
      keyOfPath pk p1 = keyOfPath pk p2 → p1 = p2 := by
  intro p1 p2 h1 h2 hw1 hw2 heq
  have hdotfree : ∀ (p : List Seg), (∀ s ∈ p, wfSeg s = true) →
      ∀ q ∈ p.map renderSegC, '.' ∉ q := by
    intro p hw q hq
    obtain ⟨s, hs, rfl⟩ := List.mem_map.mp hq
    exact (renderSegC_wf (hw s hs)).2
  have hd : (keyOfPath pk p1).data = (keyOfPath pk p2).data := congrArg String.data heq
  have hmapeq : p1.map renderSegC = p2.map renderSegC := by
    by_cases hpk : pk = ""
    · subst hpk
      rw [keyOfPath_data_empty p1 h1 hw1, keyOfPath_data_empty p2 h2 hw2] at hd
      exact dotJoinC_inj _ _ (by simpa using h1) (by simpa using h2)
        (hdotfree p1 hw1) (hdotfree p2 hw2) hd
    · rw [keyOfPath_data p1 pk hpk hw1, keyOfPath_data p2 pk hpk hw2] at hd
      have hdt : dotTail (p1.map renderSegC) = dotTail (p2.map renderSegC) :=
        List.append_cancel_left hd
      match hm1 : p1.map renderSegC, hm2 : p2.map renderSegC with
      | [], _ => exact absurd (by simpa using hm1) h1
      | _ :: _, [] => exact absurd (by simpa using hm2) h2
      | a :: as, b :: bs =>
          rw [hm1, hm2] at hdt
          have hdj : dotJoinC (a :: as) = dotJoinC (b :: bs) := by
            have : ('.' :: dotJoinC (a :: as) : List Char) = '.' :: dotJoinC (b :: bs) := hdt
            exact List.cons.inj this |>.2
          rw [← hm1, ← hm2]
          rw [hm1, hm2]
          exact dotJoinC_inj _ _ (by simp) (by simp)
            (hm1 ▸ hdotfree p1 hw1) (hm2 ▸ hdotfree p2 hw2) hdj
  exact mapRender_inj p1 p2 hw1 hw2 hmapeq

/-- The key carried by a segment. -/
def segKey : Seg → String
  | Seg.sprop k => k
  | Seg.sidx k _ => k

/-! Collision-free values: all keys well formed and distinct per object,
no empty nested object or array, no array directly inside an array. -/

mutual
def wfVal : JSVal → Bool
  | vobj fields => !fields.isEmpty && wfFields fields
  | varr es => !es.isEmpty && wfElems es
  | _ => true
termination_by structural v => v

def wfFields : List (String × JSVal) → Bool
  | [] => true
  | (k, v) :: rest => wfKeyB k && wfVal v && !(rest.any (fun q => q.1 == k)) && wfFields rest
termination_by structural l => l

def wfElems : List JSVal → Bool
  | [] => true
  | vobj gf :: rest => (!gf.isEmpty && wfFields gf) && wfElems rest
  | varr _ :: _ => false
  | _ :: rest => wfElems rest
termination_by structural l => l
end

/-! Values containing no function anywhere. -/

mutual
def noFunV : JSVal → Bool
  | vfun _ => false
  | vobj fields => noFunF fields
  | varr es => noFunL es
  | _ => true
termination_by structural v => v

def noFunF : List (String × JSVal) → Bool
  | [] => true
  | (_, v) :: rest => noFunV v && noFunF rest
termination_by structural l => l

def noFunL : List JSVal → Bool
  | [] => true
  | e :: rest => noFunV e && noFunL rest
termination_by structural l => l
end

/-! The canonical, append-based description of the flatten output: the
structured path of every leaf together with the value stored there. -/

mutual
def pathsFields : List (String × JSVal) → List (List Seg × JSVal)
  | [] => []
  | (k, v) :: rest => pathsEntry k v ++ pathsFields rest
termination_by structural l => l

def pathsEntry (k : String) : JSVal → List (List Seg × JSVal)
  | vobj gf => (pathsFields gf).map (fun pr => (Seg.sprop k :: pr.1, pr.2))
  | varr es => pathsElems k es 0
  | vfun src => [([Seg.sprop k], markerObj src)]
  | v => [([Seg.sprop k], v)]
termination_by structural v => v

def pathsElems (k : String) : List JSVal → Nat → List (List Seg × JSVal)
  | [], _ => []
  | vobj gf :: rest, i =>
      (pathsFields gf).map (fun pr => (Seg.sidx k i :: pr.1, pr.2)) ++ pathsElems k rest (i + 1)
  | varr _ :: rest, i => pathsElems k rest (i + 1)
  | e :: rest, i => ([Seg.sidx k i], e) :: pathsElems k rest (i + 1)
termination_by structural l _ => l
end

/-- The structured mirror of `unflattenInsert`: the same walk with the
segments already parsed. -/
def insertSegs (cur : JSVal) : List Seg → JSVal → JSVal
  | [], _ => cur
  | Seg.sprop k :: rest, value =>
      if rest.isEmpty then setProp cur k (reconstructLeaf value)
      else
        let child := getProp cur k
        let child1 := if isObjLike child then child else vobj []
        setProp cur k (insertSegs child1 rest value)
  | Seg.sidx name index :: rest, value =>
      let cur1 := if truthy (getProp cur name) then cur else setProp cur name (varr [])
      let arr := getProp cur1 name
      if rest.isEmpty then setProp cur1 name (setIdx arr index (reconstructLeaf value))
      else
        let elem := getIdx arr index
        let elem1 := if isObjLike elem then elem else vobj []
        setProp cur1 name (setIdx arr index (insertSegs elem1 rest value))

theorem wfFields_cons {k : String} {v : JSVal} {rest : List (String × JSVal)}
    (h : wfFields ((k, v) :: rest) = true) :
    wfKeyB k = true ∧ wfVal v = true ∧ (∀ q ∈ rest, q.1 ≠ k) ∧ wfFields rest = true := by
  unfold wfFields at h
  simp only [Bool.and_eq_true, Bool.not_eq_true', List.any_eq_false] at h
  obtain ⟨⟨⟨hk, hv⟩, hno⟩, hrest⟩ := h
  exact ⟨hk, hv, fun q hq => by simpa using hno q hq, hrest⟩

theorem wfVal_vobj {fields : List (String × JSVal)} (h : wfVal (vobj fields) = true) :
    fields ≠ [] ∧ wfFields fields = true := by
  unfold wfVal at h
  simp only [Bool.and_eq_true, Bool.not_eq_true', List.isEmpty_eq_false_iff_exists_mem] at h
  obtain ⟨⟨x, hx⟩, hf⟩ := h
  exact ⟨fun hc => by simp [hc] at hx, hf⟩

theorem wfVal_varr {es : List JSVal} (h : wfVal (varr es) = true) :
    es ≠ [] ∧ wfElems es = true := by
  unfold wfVal at h
  simp only [Bool.and_eq_true, Bool.not_eq_true', List.isEmpty_eq_false_iff_exists_mem] at h
  obtain ⟨⟨x, hx⟩, hf⟩ := h
  exact ⟨fun hc => by simp [hc] at hx, hf⟩

theorem wfElems_cons_vobj {gf : List (String × JSVal)} {rest : List JSVal}
    (h : wfElems (vobj gf :: rest) = true) :
    gf ≠ [] ∧ wfFields gf = true ∧ wfElems rest = true := by
  unfold wfElems at h
  simp only [Bool.and_eq_true, Bool.not_eq_true', List.isEmpty_eq_false_iff_exists_mem] at h
  obtain ⟨⟨⟨x, hx⟩, hgf⟩, hrest⟩ := h
  exact ⟨fun hc => by simp [hc] at hx, hgf, hrest⟩

theorem wfElems_cons_rest {e : JSVal} {rest : List JSVal}
    (h : wfElems (e :: rest) = true) : wfElems rest = true := by
  cases e <;> first
    | exact h
    | exact (wfElems_cons_vobj h).2.2
    | exact absurd h (by simp [wfElems])

theorem wfElems_not_varr {e : JSVal} {rest : List JSVal}
    (h : wfElems (e :: rest) = true) : ∀ es2, e ≠ varr es2 := by
  intro es2 hc
  subst hc
  exact absurd h (by simp [wfElems])

mutual
theorem pathsFields_ne :
    ∀ (fields : List (String × JSVal)), wfFields fields = true → fields ≠ [] →
      pathsFields fields ≠ []
  | (k, v) :: rest, h, _ => by
      have hv := (wfFields_cons h).2.1
      show pathsEntry k v ++ pathsFields rest ≠ []
      have := pathsEntry_ne k v hv
      simp only [ne_eq, List.append_eq_nil]
      intro hc
      exact this hc.1

theorem pathsEntry_ne :
    ∀ (k : String) (v : JSVal), wfVal v = true → pathsEntry k v ≠ []
  | k, vobj gf, h => by
      obtain ⟨hne, hwf⟩ := wfVal_vobj h
      show (pathsFields gf).map _ ≠ []
      simp only [ne_eq, List.map_eq_nil_iff]
      exact pathsFields_ne gf hwf hne
  | k, varr es, h => by
      obtain ⟨hne, hwf⟩ := wfVal_varr h
      exact pathsElems_ne k es 0 hwf hne
  | k, vfun src, _ => by simp [pathsEntry]
  | k, vundef, _ => by simp [pathsEntry]
  | k, vnull, _ => by simp [pathsEntry]
  | k, vbool b, _ => by simp [pathsEntry]
  | k, vnum n, _ => by simp [pathsEntry]
  | k, vstr t, _ => by simp [pathsEntry]

theorem pathsElems_ne :
    ∀ (k : String) (es : List JSVal) (i : Nat), wfElems es = true → es ≠ [] →
      pathsElems k es i ≠ []
  | k, vobj gf :: rest, i, h, _ => by
      obtain ⟨hne, hwf, _⟩ := wfElems_cons_vobj h
      show (pathsFields gf).map _ ++ pathsElems k rest (i + 1) ≠ []
      simp only [ne_eq, List.append_eq_nil, List.map_eq_nil_iff]
      intro hc
      exact pathsFields_ne gf hwf hne hc.1
  | k, varr es2 :: rest, i, h, _ => absurd h (by simp [wfElems])
  | k, vundef :: rest, i, _, _ => by simp [pathsElems]
  | k, vnull :: rest, i, _, _ => by simp [pathsElems]
  | k, vbool b :: rest, i, _, _ => by simp [pathsElems]
  | k, vnum n :: rest, i, _, _ => by simp [pathsElems]
  | k, vstr t :: rest, i, _, _ => by simp [pathsElems]
  | k, vfun src :: rest, i, _, _ => by simp [pathsElems]
end

mutual
theorem pathsFields_wfp :
    ∀ (fields : List (String × JSVal)), wfFields fields = true →
      ∀ pr ∈ pathsFields fields, pr.1 ≠ [] ∧ ∀ s ∈ pr.1, wfSeg s = true
  | [], _, pr, hpr => absurd hpr (by simp [pathsFields])
  | (k, v) :: rest, h, pr, hpr => by
      obtain ⟨hk, hv, _, hrest⟩ := wfFields_cons h
      rcases List.mem_append.mp hpr with h1 | h1
      · exact pathsEntry_wfp k v hk hv pr h1
      · exact pathsFields_wfp rest hrest pr h1

theorem pathsEntry_wfp :
    ∀ (k : String) (v : JSVal), wfKeyB k = true → wfVal v = true →
      ∀ pr ∈ pathsEntry k v, pr.1 ≠ [] ∧ ∀ s ∈ pr.1, wfSeg s = true
  | k, vobj gf, hk, hv, pr, hpr => by
      obtain ⟨sub, hsub, rfl⟩ := List.mem_map.mp hpr
      obtain ⟨_, hs2⟩ := pathsFields_wfp gf (wfVal_vobj hv).2 sub hsub
      refine ⟨by simp, ?_⟩
      intro s hs
      rcases List.mem_cons.mp hs with rfl | hs3
      · exact hk
      · exact hs2 s hs3
  | k, varr es, hk, hv, pr, hpr => pathsElems_wfp k es 0 hk (wfVal_varr hv).2 pr hpr
  | k, vfun src, hk, _, pr, hpr => by
      simp only [pathsEntry, List.mem_singleton] at hpr
      subst hpr
      refine ⟨by simp, ?_⟩
      intro s hs
      rcases List.mem_singleton.mp hs with rfl
      exact hk
  | k, vundef, hk, _, pr, hpr => by
      simp only [pathsEntry, List.mem_singleton] at hpr
      subst hpr
      exact ⟨by simp, fun s hs => by rcases List.mem_singleton.mp hs with rfl; exact hk⟩
  | k, vnull, hk, _, pr, hpr => by
      simp only [pathsEntry, List.mem_singleton] at hpr
      subst hpr
      exact ⟨by simp, fun s hs => by rcases List.mem_singleton.mp hs with rfl; exact hk⟩
  | k, vbool b, hk, _, pr, hpr => by
      simp only [pathsEntry, List.mem_singleton] at hpr
      subst hpr
      exact ⟨by simp, fun s hs => by rcases List.mem_singleton.mp hs with rfl; exact hk⟩
  | k, vnum n, hk, _, pr, hpr => by
      simp only [pathsEntry, List.mem_singleton] at hpr
      subst hpr
      exact ⟨by simp, fun s hs => by rcases List.mem_singleton.mp hs with rfl; exact hk⟩
  | k, vstr t, hk, _, pr, hpr => by
      simp only [pathsEntry, List.mem_singleton] at hpr
      subst hpr
      exact ⟨by simp, fun s hs => by rcases List.mem_singleton.mp hs with rfl; exact hk⟩

theorem pathsElems_wfp :
    ∀ (k : String) (es : List JSVal) (i : Nat), wfKeyB k = true → wfElems es = true →
      ∀ pr ∈ pathsElems k es i, pr.1 ≠ [] ∧ ∀ s ∈ pr.1, wfSeg s = true
  | k, [], i, _, _, pr, hpr => absurd hpr (by simp [pathsElems])
  | k, vobj gf :: rest, i, hk, h, pr, hpr => by
      obtain ⟨_, hgf, hrest⟩ := wfElems_cons_vobj h
      rcases List.mem_append.mp hpr with h1 | h1
      · obtain ⟨sub, hsub, rfl⟩ := List.mem_map.mp h1
        obtain ⟨_, hs2⟩ := pathsFields_wfp gf hgf sub hsub
        refine ⟨by simp, ?_⟩
        intro s hs
        rcases List.mem_cons.mp hs with rfl | hs3
        · exact hk
        · exact hs2 s hs3
      · exact pathsElems_wfp k rest (i + 1) hk hrest pr h1
  | k, varr es2 :: rest, i, _, h, pr, hpr => absurd h (by simp [wfElems])
  | k, vundef :: rest, i, hk, h, pr, hpr => by
      rcases List.mem_cons.mp hpr with rfl | h1
      · exact ⟨by simp, fun s hs => by rcases List.mem_singleton.mp hs with rfl; exact hk⟩
      · exact pathsElems_wfp k rest (i + 1) hk (wfElems_cons_rest h) pr h1
  | k, vnull :: rest, i, hk, h, pr, hpr => by
      rcases List.mem_cons.mp hpr with rfl | h1
      · exact ⟨by simp, fun s hs => by rcases List.mem_singleton.mp hs with rfl; exact hk⟩
      · exact pathsElems_wfp k rest (i + 1) hk (wfElems_cons_rest h) pr h1
  | k, vbool b :: rest, i, hk, h, pr, hpr => by
      rcases List.mem_cons.mp hpr with rfl | h1
      · exact ⟨by simp, fun s hs => by rcases List.mem_singleton.mp hs with rfl; exact hk⟩
      · exact pathsElems_wfp k rest (i + 1) hk (wfElems_cons_rest h) pr h1
  | k, vnum n :: rest, i, hk, h, pr, hpr => by
      rcases List.mem_cons.mp hpr with rfl | h1
      · exact ⟨by simp, fun s hs => by rcases List.mem_singleton.mp hs with rfl; exact hk⟩
      · exact pathsElems_wfp k rest (i + 1) hk (wfElems_cons_rest h) pr h1
  | k, vstr t :: rest, i, hk, h, pr, hpr => by
      rcases List.mem_cons.mp hpr with rfl | h1
      · exact ⟨by simp, fun s hs => by rcases List.mem_singleton.mp hs with rfl; exact hk⟩
      · exact pathsElems_wfp k rest (i + 1) hk (wfElems_cons_rest h) pr h1
  | k, vfun src :: rest, i, hk, h, pr, hpr => by
      rcases List.mem_cons.mp hpr with rfl | h1
      · exact ⟨by simp, fun s hs => by rcases List.mem_singleton.mp hs with rfl; exact hk⟩
      · exact pathsElems_wfp k rest (i + 1) hk (wfElems_cons_rest h) pr h1
end

/-- Every path contributed by an array value starts with an index segment
carrying the array key and an index at least the starting one. -/
theorem pathsElems_headKey :
    ∀ (k : String) (es : List JSVal) (i : Nat) (pr : List Seg × JSVal),
      pr ∈ pathsElems k es i → ∃ j sub, pr.1 = Seg.sidx k j :: sub ∧ i ≤ j := by
  intro k es
  induction es with
  | nil => intro i pr hpr; exact absurd hpr (by simp [pathsElems])
  | cons e rest ih =>
      intro i pr hpr
      match e, hpr with
      | vobj gf, hpr =>
          rcases List.mem_append.mp hpr with h1 | h1
          · obtain ⟨sub, _, rfl⟩ := List.mem_map.mp h1
            exact ⟨i, sub.1, rfl, Nat.le_refl i⟩
          · obtain ⟨j, sub, hj, hij⟩ := ih (i + 1) pr h1
            exact ⟨j, sub, hj, by omega⟩
      | varr es2, hpr =>
          obtain ⟨j, sub, hj, hij⟩ := ih (i + 1) pr hpr
          exact ⟨j, sub, hj, by omega⟩
      | vundef, hpr =>
          rcases List.mem_cons.mp hpr with rfl | h1
          · exact ⟨i, [], rfl, Nat.le_refl i⟩
          · obtain ⟨j, sub, hj, hij⟩ := ih (i + 1) pr h1
            exact ⟨j, sub, hj, by omega⟩
      | vnull, hpr =>
          rcases List.mem_cons.mp hpr with rfl | h1
          · exact ⟨i, [], rfl, Nat.le_refl i⟩
          · obtain ⟨j, sub, hj, hij⟩ := ih (i + 1) pr h1
            exact ⟨j, sub, hj, by omega⟩
      | vbool b, hpr =>
          rcases List.mem_cons.mp hpr with rfl | h1
          · exact ⟨i, [], rfl, Nat.le_refl i⟩
          · obtain ⟨j, sub, hj, hij⟩ := ih (i + 1) pr h1
            exact ⟨j, sub, hj, by omega⟩
      | vnum n, hpr =>
          rcases List.mem_cons.mp hpr with rfl | h1
          · exact ⟨i, [], rfl, Nat.le_refl i⟩
          · obtain ⟨j, sub, hj, hij⟩ := ih (i + 1) pr h1
            exact ⟨j, sub, hj, by omega⟩
      | vstr t, hpr =>
          rcases List.mem_cons.mp hpr with rfl | h1
          · exact ⟨i, [], rfl, Nat.le_refl i⟩
          · obtain ⟨j, sub, hj, hij⟩ := ih (i + 1) pr h1
            exact ⟨j, sub, hj, by omega⟩
      | vfun src, hpr =>
          rcases List.mem_cons.mp hpr with rfl | h1
          · exact ⟨i, [], rfl, Nat.le_refl i⟩
          · obtain ⟨j, sub, hj, hij⟩ := ih (i + 1) pr h1
            exact ⟨j, sub, hj, by omega⟩

/-- Every path contributed by one property starts with a segment carrying
that property key. -/
theorem pathsEntry_headKey (k : String) (v : JSVal) (pr : List Seg × JSVal)
    (hpr : pr ∈ pathsEntry k v) : ∃ s sub, pr.1 = s :: sub ∧ segKey s = k := by
  match v, hpr with
  | vobj gf, hpr =>
      obtain ⟨sub, _, rfl⟩ := List.mem_map.mp hpr
      exact ⟨Seg.sprop k, sub.1, rfl, rfl⟩
  | varr es, hpr =>
      obtain ⟨j, sub, hj, _⟩ := pathsElems_headKey k es 0 pr hpr
      exact ⟨Seg.sidx k j, sub, hj, rfl⟩
  | vfun src, hpr =>
      simp only [pathsEntry, List.mem_singleton] at hpr
      subst hpr
      exact ⟨Seg.sprop k, [], rfl, rfl⟩
  | vundef, hpr =>
      simp only [pathsEntry, List.mem_singleton] at hpr
      subst hpr
      exact ⟨Seg.sprop k, [], rfl, rfl⟩
  | vnull, hpr =>
      simp only [pathsEntry, List.mem_singleton] at hpr
      subst hpr
      exact ⟨Seg.sprop k, [], rfl, rfl⟩
  | vbool b, hpr =>
      simp only [pathsEntry, List.mem_singleton] at hpr
      subst hpr
      exact ⟨Seg.sprop k, [], rfl, rfl⟩
  | vnum n, hpr =>
      simp only [pathsEntry, List.mem_singleton] at hpr
      subst hpr
      exact ⟨Seg.sprop k, [], rfl, rfl⟩
  | vstr t, hpr =>
      simp only [pathsEntry, List.mem_singleton] at hpr
      subst hpr
      exact ⟨Seg.sprop k, [], rfl, rfl⟩

/-- Every path of an object starts with a segment carrying one of its
keys. -/
theorem pathsFields_headKey :
    ∀ (fields : List (String × JSVal)) (pr : List Seg × JSVal),
      pr ∈ pathsFields fields → ∃ q ∈ fields, ∃ s sub, pr.1 = s :: sub ∧ segKey s = q.1 := by
  intro fields
  induction fields with
  | nil => intro pr hpr; exact absurd hpr (by simp [pathsFields])
  | cons q rest ih =>
      intro pr hpr
      rcases List.mem_append.mp hpr with h1 | h1
      · obtain ⟨s, sub, hs, hk⟩ := pathsEntry_headKey q.1 q.2 pr h1
        exact ⟨q, List.mem_cons_self q rest, s, sub, hs, hk⟩
      · obtain ⟨q', hq', s, sub, hs, hk⟩ := ih pr h1
        exact ⟨q', List.mem_cons_of_mem q hq', s, sub, hs, hk⟩

mutual
theorem pathsFields_nodup :
    ∀ (fields : List (String × JSVal)), wfFields fields = true →
      (pathsFields fields).Pairwise (fun a b => a.1 ≠ b.1)
  | [], _ => by simp [pathsFields]
  | (k, v) :: rest, h => by
      obtain ⟨hk, hv, hdis, hrest⟩ := wfFields_cons h
      show (pathsEntry k v ++ pathsFields rest).Pairwise _
      rw [List.pairwise_append]
      refine ⟨pathsEntry_nodup k v hk hv, pathsFields_nodup rest hrest, ?_⟩
      intro a ha b hb
      obtain ⟨s, sub, ha1, hak⟩ := pathsEntry_headKey k v a ha
      obtain ⟨q, hq, s', sub', hb1, hbk⟩ := pathsFields_headKey rest b hb
      intro hab
      rw [ha1, hb1] at hab
      have hss : s = s' := (List.cons.inj hab).1
      have hkq : k = q.1 := by rw [← hak, hss, hbk]
      exact hdis q hq hkq.symm

theorem pathsEntry_nodup :
    ∀ (k : String) (v : JSVal), wfKeyB k = true → wfVal v = true →
      (pathsEntry k v).Pairwise (fun a b => a.1 ≠ b.1)
  | k, vobj gf, hk, hv => by
      show ((pathsFields gf).map _).Pairwise _
      rw [List.pairwise_map]
      refine (pathsFields_nodup gf (wfVal_vobj hv).2).imp ?_
      intro a b hab hc
      exact hab (List.cons.inj hc).2
  | k, varr es, hk, hv => pathsElems_nodup k es 0 hk (wfVal_varr hv).2
  | k, vfun src, _, _ => by simp [pathsEntry]
  | k, vundef, _, _ => by simp [pathsEntry]
  | k, vnull, _, _ => by simp [pathsEntry]
  | k, vbool b, _, _ => by simp [pathsEntry]
  | k, vnum n, _, _ => by simp [pathsEntry]
  | k, vstr t, _, _ => by simp [pathsEntry]

theorem pathsElems_nodup :
    ∀ (k : String) (es : List JSVal) (i : Nat), wfKeyB k = true → wfElems es = true →
      (pathsElems k es i).Pairwise (fun a b => a.1 ≠ b.1)
  | k, [], i, _, _ => by simp [pathsElems]
  | k, vobj gf :: rest, i, hk, h => by
      obtain ⟨_, hgf, hrest⟩ := wfElems_cons_vobj h
      show ((pathsFields gf).map _ ++ pathsElems k rest (i + 1)).Pairwise _
      rw [List.pairwise_append]
      refine ⟨?_, pathsElems_nodup k rest (i + 1) hk hrest, ?_⟩
      · rw [List.pairwise_map]
        refine (pathsFields_nodup gf hgf).imp ?_
        intro a b hab hc
        exact hab (List.cons.inj hc).2
      · intro a ha b hb
        obtain ⟨sub, _, rfl⟩ := List.mem_map.mp ha
        obtain ⟨j, sub', hb1, hij⟩ := pathsElems_headKey k rest (i + 1) b hb
        intro hab
        rw [hb1] at hab
        have hhead := (List.cons.inj hab).1
        have : i = j := by injection hhead
        omega
  | k, varr es2 :: rest, i, _, h => absurd h (by simp [wfElems])
  | k, vundef :: rest, i, hk, h => by
      refine List.pairwise_cons.mpr ⟨?_, pathsElems_nodup k rest (i + 1) hk (wfElems_cons_rest h)⟩
      intro b hb
      obtain ⟨j, sub', hb1, hij⟩ := pathsElems_headKey k rest (i + 1) b hb
      intro hab
      rw [hb1] at hab
      have hhead := (List.cons.inj hab).1
      have : i = j := by injection hhead
      omega
  | k, vnull :: rest, i, hk, h => by
      refine List.pairwise_cons.mpr ⟨?_, pathsElems_nodup k rest (i + 1) hk (wfElems_cons_rest h)⟩
      intro b hb
      obtain ⟨j, sub', hb1, hij⟩ := pathsElems_headKey k rest (i + 1) b hb
      intro hab
      rw [hb1] at hab
      have hhead := (List.cons.inj hab).1
      have : i = j := by injection hhead
      omega
  | k, vbool bb :: rest, i, hk, h => by
      refine List.pairwise_cons.mpr ⟨?_, pathsElems_nodup k rest (i + 1) hk (wfElems_cons_rest h)⟩
      intro b hb
      obtain ⟨j, sub', hb1, hij⟩ := pathsElems_headKey k rest (i + 1) b hb
      intro hab
      rw [hb1] at hab
      have hhead := (List.cons.inj hab).1
      have : i = j := by injection hhead
      omega
  | k, vnum n :: rest, i, hk, h => by
      refine List.pairwise_cons.mpr ⟨?_, pathsElems_nodup k rest (i + 1) hk (wfElems_cons_rest h)⟩
      intro b hb
      obtain ⟨j, sub', hb1, hij⟩ := pathsElems_headKey k rest (i + 1) b hb
      intro hab
      rw [hb1] at hab
      have hhead := (List.cons.inj hab).1
      have : i = j := by injection hhead
      omega
  | k, vstr t :: rest, i, hk, h => by
      refine List.pairwise_cons.mpr ⟨?_, pathsElems_nodup k rest (i + 1) hk (wfElems_cons_rest h)⟩
      intro b hb
      obtain ⟨j, sub', hb1, hij⟩ := pathsElems_headKey k rest (i + 1) b hb
      intro hab
      rw [hb1] at hab
      have hhead := (List.cons.inj hab).1
      have : i = j := by injection hhead
      omega
  | k, vfun src :: rest, i, hk, h => by
      refine List.pairwise_cons.mpr ⟨?_, pathsElems_nodup k rest (i + 1) hk (wfElems_cons_rest h)⟩
      intro b hb
      obtain ⟨j, sub', hb1, hij⟩ := pathsElems_headKey k rest (i + 1) b hb
      intro hab
      rw [hb1] at hab
      have hhead := (List.cons.inj hab).1
      have : i = j := by injection hhead
      omega
end

mutual
def jsizeV : JSVal → Nat
  | vobj fields => jsizeF fields + 1
  | varr es => jsizeL es + 1
  | _ => 1
termination_by structural v => v

def jsizeF : List (String × JSVal) → Nat
  | [] => 0
  | (_, v) :: rest => jsizeV v + jsizeF rest + 1
termination_by structural l => l

def jsizeL : List JSVal → Nat
  | [] => 0
  | e :: rest => jsizeV e + jsizeL rest + 1
termination_by structural l => l
end

theorem assignKV_notmem {m : List (String × JSVal)} {k : String} (v : JSVal)
    (h : ∀ p ∈ m, p.1 ≠ k) : assignKV m k v = m ++ [(k, v)] := by
  unfold assignKV
  rw [if_neg]
  simp only [List.any_eq_true, not_exists, not_and]
  intro p hp
  simp [h p hp]

theorem objAssign_append :
    ∀ (src tgt : List (String × JSVal)),
      (∀ p ∈ src, ∀ q ∈ tgt, q.1 ≠ p.1) → src.Pairwise (fun a b => a.1 ≠ b.1) →
      objAssign tgt src = tgt ++ src := by
  intro src
  induction src with
  | nil => intro tgt _ _; simp [objAssign]
  | cons p rest ih =>
      intro tgt hdis hpw
      show objAssign (assignKV tgt p.1 p.2) rest = tgt ++ p :: rest
      rw [assignKV_notmem p.2 (fun q hq => hdis p (List.mem_cons_self p rest) q hq)]
      rw [ih (tgt ++ [(p.1, p.2)]) ?_ (List.pairwise_cons.mp hpw).2]
      · simp
      · intro r hr q hq
        rcases List.mem_append.mp hq with h1 | h1
        · exact hdis r (List.mem_cons_of_mem p hr) q h1
        · rcases List.mem_singleton.mp h1 with rfl
          exact (List.pairwise_cons.mp hpw).1 r hr

theorem string_append_assoc (a b c : String) : a ++ b ++ c = a ++ (b ++ c) := by
  apply string_ext
  rw [data_append, data_append, data_append, data_append]
  simp

theorem joinKey_bracket (pk k : String) (i : Nat) :
    joinKey pk "." k ++ "[" ++ natToString i ++ "]"
      = joinKey pk "." (renderSeg (Seg.sidx k i)) := by
  show joinKey pk "." k ++ "[" ++ natToString i ++ "]"
      = joinKey pk "." (k ++ "[" ++ natToString i ++ "]")
  unfold joinKey
  by_cases hpk : pk = ""
  · rw [if_pos hpk, if_pos hpk]
  · rw [if_neg hpk, if_neg hpk]
    apply string_ext
    simp [data_append]

theorem keyOfPath_singleton (pk : String) (s : Seg) :
    keyOfPath pk [s] = joinKey pk "." (renderSeg s) := rfl

theorem pathsFields_keysNodup (pk : String) (gf : List (String × JSVal))
    (h : wfFields gf = true) :
    ((pathsFields gf).map (fun pr => (keyOfPath pk pr.1, pr.2))).Pairwise
      (fun a b => a.1 ≠ b.1) := by
  rw [List.pairwise_map]
  have hp := pathsFields_nodup gf h
  have hw := pathsFields_wfp gf h
  refine List.Pairwise.imp_of_mem ?_ hp
  intro a b ha hb hab heq
  exact hab (keyOfPath_inj pk a.1 b.1 (hw a ha).1 (hw b hb).1 (hw a ha).2 (hw b hb).2 heq)

mutual
theorem flattenFields_paths :
    ∀ (fields : List (String × JSVal)) (pk : String) (acc : List (String × JSVal)),
      wfFields fields = true →
      (∀ pr ∈ pathsFields fields, ∀ q ∈ acc, q.1 ≠ keyOfPath pk pr.1) →
      flattenFields fields pk "." acc
        = acc ++ (pathsFields fields).map (fun pr => (keyOfPath pk pr.1, pr.2))
  | [], pk, acc, _, _ => by simp [flattenFields, pathsFields]
  | (k, v) :: rest, pk, acc, h, hacc => by
      obtain ⟨hk, hv, hdis, hrest⟩ := wfFields_cons h
      show flattenFields rest pk "." (flattenEntry v (joinKey pk "." k) "." acc)
          = acc ++ (pathsEntry k v ++ pathsFields rest).map (fun pr => (keyOfPath pk pr.1, pr.2))
      have hacc2 : ∀ pr ∈ pathsFields rest,
          ∀ q ∈ acc ++ (pathsEntry k v).map (fun pr2 => (keyOfPath pk pr2.1, pr2.2)),
          q.1 ≠ keyOfPath pk pr.1 := by
        intro pr hpr q hq
        rcases List.mem_append.mp hq with h1 | h1
        · exact hacc pr (List.mem_append_right _ hpr) q h1
        · obtain ⟨sub, hsub, rfl⟩ := List.mem_map.mp h1
          show keyOfPath pk sub.1 ≠ keyOfPath pk pr.1
          intro heq
          have hwE := pathsEntry_wfp k v hk hv sub hsub
          have hwR := pathsFields_wfp rest hrest pr hpr
          have hpeq : sub.1 = pr.1 :=
            keyOfPath_inj pk sub.1 pr.1 hwE.1 hwR.1 hwE.2 hwR.2 heq
          obtain ⟨s, ssub, hs1, hsk⟩ := pathsEntry_headKey k v sub hsub
          obtain ⟨q', hq', s', ssub', hs2, hsk2⟩ := pathsFields_headKey rest pr hpr
          rw [hs1, hs2] at hpeq
          have hseq : s = s' := (List.cons.inj hpeq).1
          exact hdis q' hq' (by rw [← hsk2, ← hseq, hsk])
      rw [flattenEntry_paths k v pk acc hk hv
        (fun pr hpr q hq => hacc pr (List.mem_append_left _ hpr) q hq)]
      rw [flattenFields_paths rest pk _ hrest hacc2]
      simp
termination_by fields _ _ _ _ => (jsizeF fields, 0)
decreasing_by
  all_goals simp only [jsizeV, jsizeF, jsizeL]
  all_goals first
    | (apply Prod.Lex.right; omega)
    | (apply Prod.Lex.left; omega)
    | omega

theorem flattenEntry_paths :
    ∀ (k : String) (v : JSVal) (pk : String) (acc : List (String × JSVal)),
      wfKeyB k = true → wfVal v = true →
      (∀ pr ∈ pathsEntry k v, ∀ q ∈ acc, q.1 ≠ keyOfPath pk pr.1) →
      flattenEntry v (joinKey pk "." k) "." acc
        = acc ++ (pathsEntry k v).map (fun pr => (keyOfPath pk pr.1, pr.2))
  | k, vobj gf, pk, acc, hk, hv, hacc => by
      show objAssign acc (flattenFields gf (joinKey pk "." k) "." [])
          = acc ++ ((pathsFields gf).map (fun pr => (Seg.sprop k :: pr.1, pr.2))).map
              (fun pr => (keyOfPath pk pr.1, pr.2))
      rw [flattenFields_paths gf (joinKey pk "." k) [] (wfVal_vobj hv).2 (by simp)]
      rw [List.nil_append]
      rw [objAssign_append _ acc ?_ (pathsFields_keysNodup (joinKey pk "." k) gf (wfVal_vobj hv).2)]
      · rw [List.map_map]
        rfl
      · intro p hp q hq
        obtain ⟨sub, hsub, rfl⟩ := List.mem_map.mp hp
        exact hacc (Seg.sprop k :: sub.1, sub.2)
          (List.mem_map.mpr ⟨sub, hsub, rfl⟩) q hq
  | k, varr es, pk, acc, hk, hv, hacc => by
      show flattenElems es 0 (joinKey pk "." k) "." acc
          = acc ++ (pathsElems k es 0).map (fun pr => (keyOfPath pk pr.1, pr.2))
      exact flattenElems_paths k es 0 pk acc hk (wfVal_varr hv).2 hacc
  | k, vfun src, pk, acc, hk, _, hacc => by
      show assignKV acc (joinKey pk "." k) (markerObj src)
          = acc ++ [([Seg.sprop k], markerObj src)].map (fun pr => (keyOfPath pk pr.1, pr.2))
      rw [assignKV_notmem (markerObj src) ?_]
      · rfl
      · intro q hq
        have := hacc ([Seg.sprop k], markerObj src) (by simp [pathsEntry]) q hq
        simpa [keyOfPath_singleton] using this
  | k, vundef, pk, acc, hk, _, hacc => by
      show assignKV acc (joinKey pk "." k) vundef
          = acc ++ [([Seg.sprop k], vundef)].map (fun pr => (keyOfPath pk pr.1, pr.2))
      rw [assignKV_notmem vundef ?_]
      · rfl
      · intro q hq
        have := hacc ([Seg.sprop k], vundef) (by simp [pathsEntry]) q hq
        simpa [keyOfPath_singleton] using this
  | k, vnull, pk, acc, hk, _, hacc => by
      show assignKV acc (joinKey pk "." k) vnull
          = acc ++ [([Seg.sprop k], vnull)].map (fun pr => (keyOfPath pk pr.1, pr.2))
      rw [assignKV_notmem vnull ?_]
      · rfl
      · intro q hq
        have := hacc ([Seg.sprop k], vnull) (by simp [pathsEntry]) q hq
        simpa [keyOfPath_singleton] using this
  | k, vbool b, pk, acc, hk, _, hacc => by
      show assignKV acc (joinKey pk "." k) (vbool b)
          = acc ++ [([Seg.sprop k], vbool b)].map (fun pr => (keyOfPath pk pr.1, pr.2))
      rw [assignKV_notmem (vbool b) ?_]
      · rfl
      · intro q hq
        have := hacc ([Seg.sprop k], vbool b) (by simp [pathsEntry]) q hq
        simpa [keyOfPath_singleton] using this
  | k, vnum n, pk, acc, hk, _, hacc => by
      show assignKV acc (joinKey pk "." k) (vnum n)
          = acc ++ [([Seg.sprop k], vnum n)].map (fun pr => (keyOfPath pk pr.1, pr.2))
      rw [assignKV_notmem (vnum n) ?_]
      · rfl
      · intro q hq
        have := hacc ([Seg.sprop k], vnum n) (by simp [pathsEntry]) q hq
        simpa [keyOfPath_singleton] using this
  | k, vstr t, pk, acc, hk, _, hacc => by
      show assignKV acc (joinKey pk "." k) (vstr t)
          = acc ++ [([Seg.sprop k], vstr t)].map (fun pr => (keyOfPath pk pr.1, pr.2))
      rw [assignKV_notmem (vstr t) ?_]
      · rfl
      · intro q hq
        have := hacc ([Seg.sprop k], vstr t) (by simp [pathsEntry]) q hq
        simpa [keyOfPath_singleton] using this
termination_by _ v _ _ _ _ _ => (jsizeV v, 0)
decreasing_by
  all_goals simp only [jsizeV, jsizeF, jsizeL]
  all_goals first
    | (apply Prod.Lex.right; omega)
    | (apply Prod.Lex.left; omega)
    | omega

theorem flattenElems_paths :
    ∀ (k : String) (es : List JSVal) (i : Nat) (pk : String) (acc : List (String × JSVal)),
      wfKeyB k = true → wfElems es = true →
      (∀ pr ∈ pathsElems k es i, ∀ q ∈ acc, q.1 ≠ keyOfPath pk pr.1) →
      flattenElems es i (joinKey pk "." k) "." acc
        = acc ++ (pathsElems k es i).map (fun pr => (keyOfPath pk pr.1, pr.2))
  | k, [], i, pk, acc, _, _, _ => by simp [flattenElems, pathsElems]
  | k, vobj gf :: rest, i, pk, acc, hk, h, hacc => by
      obtain ⟨hgne, hgf, hrest⟩ := wfElems_cons_vobj h
      show flattenElems rest (i + 1) (joinKey pk "." k) "."
            (objAssign acc (flattenFields gf (joinKey pk "." k ++ "[" ++ natToString i ++ "]") "." []))
          = acc ++ ((pathsFields gf).map (fun pr => (Seg.sidx k i :: pr.1, pr.2))
              ++ pathsElems k rest (i + 1)).map (fun pr => (keyOfPath pk pr.1, pr.2))
      rw [joinKey_bracket pk k i]
      rw [flattenFields_paths gf (joinKey pk "." (renderSeg (Seg.sidx k i))) [] hgf (by simp)]
      rw [List.nil_append]
      rw [objAssign_append _ acc ?hdisj
        (pathsFields_keysNodup (joinKey pk "." (renderSeg (Seg.sidx k i))) gf hgf)]
      case hdisj =>
        intro p hp q hq
        obtain ⟨sub, hsub, rfl⟩ := List.mem_map.mp hp
        have := hacc (Seg.sidx k i :: sub.1, sub.2)
          (List.mem_append_left _ (List.mem_map.mpr ⟨sub, hsub, rfl⟩)) q hq
        exact this
      rw [flattenElems_paths k rest (i + 1) pk _ hk hrest ?hacc2]
      case hacc2 =>
        intro pr hpr q hq
        rcases List.mem_append.mp hq with h1 | h1
        · exact hacc pr (List.mem_append_right _ hpr) q h1
        · obtain ⟨sub, hsub, rfl⟩ := List.mem_map.mp h1
          show keyOfPath (joinKey pk "." (renderSeg (Seg.sidx k i))) sub.1 ≠ keyOfPath pk pr.1
          intro heq
          have hwsub := pathsFields_wfp gf hgf sub hsub
          have hwpr := pathsElems_wfp k rest (i + 1) hk hrest pr hpr
          have heq2 : keyOfPath pk (Seg.sidx k i :: sub.1) = keyOfPath pk pr.1 := heq
          have hwhead : ∀ s ∈ Seg.sidx k i :: sub.1, wfSeg s = true := by
            intro s hs
            rcases List.mem_cons.mp hs with rfl | hs2
            · exact hk
            · exact hwsub.2 s hs2
          have hpeq : Seg.sidx k i :: sub.1 = pr.1 :=
            keyOfPath_inj pk _ pr.1 (by simp) hwpr.1 hwhead hwpr.2 heq2
          obtain ⟨j, sub', hj, hij⟩ := pathsElems_headKey k rest (i + 1) pr hpr
          rw [hj] at hpeq
          have hhead := (List.cons.inj hpeq).1
          have : i = j := by injection hhead
          omega
      rw [List.map_append, List.map_map]
      simp only [List.append_assoc]
      rfl
  | k, varr es2 :: rest, i, pk, acc, _, h, _ => absurd h (by simp [wfElems])
  | k, vundef :: rest, i, pk, acc, hk, h, hacc =>
      flattenElems_paths_leaf k vundef rest i pk acc hk h hacc rfl rfl
  | k, vnull :: rest, i, pk, acc, hk, h, hacc =>
      flattenElems_paths_leaf k vnull rest i pk acc hk h hacc rfl rfl
  | k, vbool b :: rest, i, pk, acc, hk, h, hacc =>
      flattenElems_paths_leaf k (vbool b) rest i pk acc hk h hacc rfl rfl
  | k, vnum n :: rest, i, pk, acc, hk, h, hacc =>
      flattenElems_paths_leaf k (vnum n) rest i pk acc hk h hacc rfl rfl
  | k, vstr t :: rest, i, pk, acc, hk, h, hacc =>
      flattenElems_paths_leaf k (vstr t) rest i pk acc hk h hacc rfl rfl
  | k, vfun src :: rest, i, pk, acc, hk, h, hacc =>
      flattenElems_paths_leaf k (vfun src) rest i pk acc hk h hacc rfl rfl
termination_by _ es _ _ _ _ _ _ => (jsizeL es, 1)
decreasing_by
  all_goals simp only [jsizeV, jsizeF, jsizeL]
  all_goals first
    | (apply Prod.Lex.right; omega)
    | (apply Prod.Lex.left; omega)
    | omega

theorem flattenElems_paths_leaf :
    ∀ (k : String) (e : JSVal) (rest : List JSVal) (i : Nat) (pk : String)
      (acc : List (String × JSVal)),
      wfKeyB k = true → wfElems (e :: rest) = true →
      (∀ pr ∈ pathsElems k (e :: rest) i, ∀ q ∈ acc, q.1 ≠ keyOfPath pk pr.1) →
      flattenElems (e :: rest) i (joinKey pk "." k) "." acc
        = flattenElems rest (i + 1) (joinKey pk "." k) "."
            (assignKV acc (joinKey pk "." k ++ "[" ++ natToString i ++ "]") e) →
      pathsElems k (e :: rest) i = ([Seg.sidx k i], e) :: pathsElems k rest (i + 1) →
      flattenElems (e :: rest) i (joinKey pk "." k) "." acc
        = acc ++ (pathsElems k (e :: rest) i).map (fun pr => (keyOfPath pk pr.1, pr.2))
  | k, e, rest, i, pk, acc, hk, h, hacc, hflat, hpaths => by
      rw [hflat, hpaths]
      have hmemhead : ([Seg.sidx k i], e) ∈ pathsElems k (e :: rest) i := by
        rw [hpaths]
        exact List.mem_cons_self _ _
      rw [show joinKey pk "." k ++ "[" ++ natToString i ++ "]"
          = keyOfPath pk [Seg.sidx k i] by rw [keyOfPath_singleton]; exact joinKey_bracket pk k i]
      rw [assignKV_notmem e (fun q hq => hacc ([Seg.sidx k i], e) hmemhead q hq)]
      rw [flattenElems_paths k rest (i + 1) pk _ hk (wfElems_cons_rest h) ?_]
      · simp
      · intro pr hpr q hq
        rcases List.mem_append.mp hq with h1 | h1
        · exact hacc pr (by rw [hpaths]; exact List.mem_cons_of_mem _ hpr) q h1
        · rcases List.mem_singleton.mp h1 with rfl
          show keyOfPath pk [Seg.sidx k i] ≠ keyOfPath pk pr.1
          intro heq
          have hwpr := pathsElems_wfp k rest (i + 1) hk (wfElems_cons_rest h) pr hpr
          have hpeq : [Seg.sidx k i] = pr.1 :=
            keyOfPath_inj pk _ pr.1 (by simp) hwpr.1
              (fun s hs => by rcases List.mem_singleton.mp hs with rfl; exact hk) hwpr.2 heq
          obtain ⟨j, sub', hj, hij⟩ := pathsElems_headKey k rest (i + 1) pr hpr
          rw [hj] at hpeq
          have hhead := (List.cons.inj hpeq).1
          have : i = j := by injection hhead
          omega
termination_by _ e rest _ _ _ _ _ _ _ _ => (jsizeL (e :: rest), 0)
decreasing_by
  all_goals simp only [jsizeV, jsizeF, jsizeL]
  all_goals first
    | (apply Prod.Lex.right; omega)
    | (apply Prod.Lex.left; omega)
    | omega
end

theorem claim_C6_witness :
    (set ⟨[vnum 5], none, [], []⟩ 0 (SetArg.fnArg (fun x => x))
        = set ⟨[vnum 5], none, [], []⟩ 0
            (SetArg.fnArg (fun _ => (fun x => x) (unflattenObject (getStored ⟨[vnum 5], none, [], []⟩ 0) ".")))) ∧
      (set ⟨[vnum 5], none, [], []⟩ 0 (SetArg.fnArg (fun _ => vnum 7))).1.sigs.getD 0 vundef = vobj [] ∧
      vobj [] ≠ vnum 7 :=
  claim_C6 ⟨[vnum 5], none, [], []⟩ 0 (fun x => x) (vnum 7) (by decide) (by decide) (by decide)
    (by decide)

/-! From rendered key strings back to structured segments: splitting the key
of a structured path recovers the rendered segments, and `unflattenInsert`
on those rendered segments walks exactly as `insertSegs`. -/

theorem map_renderSeg_isEmpty (rest : List Seg) :
    (rest.map renderSeg).isEmpty = rest.isEmpty := by
  cases rest <;> rfl

theorem unflattenInsert_none (cur : JSVal) (part : String) (rest : List String) (value : JSVal)
    (h : parseArraySeg part = none) :
    unflattenInsert cur (part :: rest) value
      = if rest.isEmpty then setProp cur part (reconstructLeaf value)
        else setProp cur part
            (unflattenInsert (if isObjLike (getProp cur part) then getProp cur part else vobj [])
              rest value) := by
  show (match parseArraySeg part with
        | some (name, index) =>
            let cur1 := if truthy (getProp cur name) then cur else setProp cur name (varr [])
            let arr := getProp cur1 name
            if rest.isEmpty then
              setProp cur1 name (setIdx arr index (reconstructLeaf value))
            else
              let elem := getIdx arr index
              let elem1 := if isObjLike elem then elem else vobj []
              setProp cur1 name (setIdx arr index (unflattenInsert elem1 rest value))
        | none =>
            if rest.isEmpty then
              setProp cur part (reconstructLeaf value)
            else
              let child := getProp cur part
              let child1 := if isObjLike child then child else vobj []
              setProp cur part (unflattenInsert child1 rest value))
      = _
  rw [h]

theorem unflattenInsert_some (cur : JSVal) (part : String) (rest : List String) (value : JSVal)
    (k : String) (i : Nat) (h : parseArraySeg part = some (k, i)) :
    unflattenInsert cur (part :: rest) value
      = if rest.isEmpty then
          setProp (if truthy (getProp cur k) then cur else setProp cur k (varr [])) k
            (setIdx (getProp (if truthy (getProp cur k) then cur else setProp cur k (varr [])) k) i
              (reconstructLeaf value))
        else
          setProp (if truthy (getProp cur k) then cur else setProp cur k (varr [])) k
            (setIdx (getProp (if truthy (getProp cur k) then cur else setProp cur k (varr [])) k) i
              (unflattenInsert
                (if isObjLike (getIdx
                      (getProp (if truthy (getProp cur k) then cur else setProp cur k (varr [])) k) i)
                 then getIdx
                      (getProp (if truthy (getProp cur k) then cur else setProp cur k (varr [])) k) i
                 else vobj [])
                rest value)) := by
  show (match parseArraySeg part with
        | some (name, index) =>
            let cur1 := if truthy (getProp cur name) then cur else setProp cur name (varr [])
            let arr := getProp cur1 name
            if rest.isEmpty then
              setProp cur1 name (setIdx arr index (reconstructLeaf value))
            else
              let elem := getIdx arr index
              let elem1 := if isObjLike elem then elem else vobj []
              setProp cur1 name (setIdx arr index (unflattenInsert elem1 rest value))
        | none =>
            if rest.isEmpty then
              setProp cur part (reconstructLeaf value)
            else
              let child := getProp cur part
              let child1 := if isObjLike child then child else vobj []
              setProp cur part (unflattenInsert child1 rest value))
      = _
  rw [h]

theorem insertSegs_prop_cons (cur : JSVal) (k : String) (rest : List Seg) (value : JSVal)
    (h : rest.isEmpty = false) :
    insertSegs cur (Seg.sprop k :: rest) value
      = setProp cur k
          (insertSegs (if isObjLike (getProp cur k) then getProp cur k else vobj []) rest value) := by
  show (if rest.isEmpty then setProp cur k (reconstructLeaf value)
        else setProp cur k
            (insertSegs (if isObjLike (getProp cur k) then getProp cur k else vobj []) rest value))
      = _
  rw [h]
  simp

theorem insertSegs_idx_eqn (cur : JSVal) (k : String) (i : Nat) (rest : List Seg) (value : JSVal) :
    insertSegs cur (Seg.sidx k i :: rest) value
      = if rest.isEmpty then
          setProp (if truthy (getProp cur k) then cur else setProp cur k (varr [])) k
            (setIdx (getProp (if truthy (getProp cur k) then cur else setProp cur k (varr [])) k) i
              (reconstructLeaf value))
        else
          setProp (if truthy (getProp cur k) then cur else setProp cur k (varr [])) k
            (setIdx (getProp (if truthy (getProp cur k) then cur else setProp cur k (varr [])) k) i
              (insertSegs
                (if isObjLike (getIdx
                      (getProp (if truthy (getProp cur k) then cur else setProp cur k (varr [])) k) i)
                 then getIdx
                      (getProp (if truthy (getProp cur k) then cur else setProp cur k (varr [])) k) i
                 else vobj [])
                rest value)) := rfl

theorem unflattenInsert_segs :
    ∀ (p : List Seg) (cur value : JSVal), (∀ s ∈ p, wfSeg s = true) →
      unflattenInsert cur (p.map renderSeg) value = insertSegs cur p value := by
  intro p
  induction p with
  | nil => intro cur value _; rfl
  | cons s rest ih =>
      intro cur value hwf
      have hrest : ∀ t ∈ rest, wfSeg t = true := fun t ht => hwf t (List.mem_cons_of_mem s ht)
      cases s with
      | sprop k =>
          have hpar : parseArraySeg (renderSeg (Seg.sprop k)) = none :=
            (wfKeyB_facts (hwf _ (List.mem_cons_self _ _))).2.2
          rw [List.map_cons, unflattenInsert_none cur (renderSeg (Seg.sprop k))
            (rest.map renderSeg) value hpar]
          rw [map_renderSeg_isEmpty,
            ih (if isObjLike (getProp cur (renderSeg (Seg.sprop k)))
                then getProp cur (renderSeg (Seg.sprop k)) else vobj []) value hrest]
          rfl
      | sidx k i =>
          have hpar : parseArraySeg (renderSeg (Seg.sidx k i)) = some (k, i) :=
            parseArraySeg_render k i
          rw [List.map_cons, unflattenInsert_some cur (renderSeg (Seg.sidx k i))
            (rest.map renderSeg) value k i hpar]
          rw [map_renderSeg_isEmpty,
            ih (if isObjLike (getIdx
                  (getProp (if truthy (getProp cur k) then cur else setProp cur k (varr [])) k) i)
                then getIdx
                  (getProp (if truthy (getProp cur k) then cur else setProp cur k (varr [])) k) i
                else vobj []) value hrest]
          rw [insertSegs_idx_eqn]

theorem jsSplit_keyOfPath (p : List Seg) (hne : p ≠ []) (hwf : ∀ s ∈ p, wfSeg s = true) :
    jsSplit (keyOfPath "" p) "." = p.map renderSeg := by
  have hdf : ∀ q ∈ p.map renderSegC, '.' ∉ q := by
    intro q hq
    obtain ⟨t, ht, rfl⟩ := List.mem_map.mp hq
    exact (renderSegC_wf (hwf t ht)).2
  have hne2 : p.map renderSegC ≠ [] := by simpa using hne
  have hs : keyOfPath "" p = String.mk (dotJoinC (p.map renderSegC)) :=
    string_ext (keyOfPath_data_empty p hne hwf)
  rw [hs, jsSplit_dotJoin (p.map renderSegC) hne2 hdf, List.map_map]
  rfl

theorem foldl_congr_mem {α β : Type} :
    ∀ (l : List α) (f g : β → α → β) (b : β),
      (∀ a ∈ l, ∀ x, f x a = g x a) → l.foldl f b = l.foldl g b := by
  intro l
  induction l with
  | nil => intro f g b _; rfl
  | cons a rest ih =>
      intro f g b h
      show rest.foldl f (f b a) = rest.foldl g (g b a)
      rw [h a (List.mem_cons_self a rest) b]
      exact ih f g (g b a) (fun c hc x => h c (List.mem_cons_of_mem a hc) x)


/-! Rebuilding the tree: folding `insertSegs` over the canonical paths of a
well-formed, function-free object reconstructs the object. -/

theorem lookupKV_notmem :
    ∀ (done : List (String × JSVal)) (k : String),
      (∀ d ∈ done, d.1 ≠ k) → lookupKV done k = none := by
  intro done k
  induction done with
  | nil => intro _; rfl
  | cons d rest ih =>
      intro h
      obtain ⟨dk, dv⟩ := d
      show (if dk = k then some dv else lookupKV rest k) = none
      rw [if_neg (h (dk, dv) (List.mem_cons_self _ _))]
      exact ih (fun q hq => h q (List.mem_cons_of_mem _ hq))

theorem lookupKV_append_self :
    ∀ (done : List (String × JSVal)) (k : String) (c : JSVal),
      (∀ d ∈ done, d.1 ≠ k) → lookupKV (done ++ [(k, c)]) k = some c := by
  intro done k c
  induction done with
  | nil =>
      intro _
      show (if k = k then some c else lookupKV [] k) = some c
      rw [if_pos rfl]
  | cons d rest ih =>
      intro h
      obtain ⟨dk, dv⟩ := d
      show (if dk = k then some dv else lookupKV (rest ++ [(k, c)]) k) = some c
      rw [if_neg (h (dk, dv) (List.mem_cons_self _ _))]
      exact ih (fun q hq => h q (List.mem_cons_of_mem _ hq))

theorem getProp_notmem (done : List (String × JSVal)) (k : String)
    (h : ∀ d ∈ done, d.1 ≠ k) : getProp (vobj done) k = vundef := by
  show (lookupKV done k).getD vundef = vundef
  rw [lookupKV_notmem done k h]
  rfl

theorem getProp_append_self (done : List (String × JSVal)) (k : String) (c : JSVal)
    (h : ∀ d ∈ done, d.1 ≠ k) : getProp (vobj (done ++ [(k, c)])) k = c := by
  show (lookupKV (done ++ [(k, c)]) k).getD vundef = c
  rw [lookupKV_append_self done k c h]
  rfl

theorem setProp_vobj (m : List (String × JSVal)) (k : String) (x : JSVal) :
    setProp (vobj m) k x = vobj (assignKV m k x) := rfl

theorem assignKV_map_keep :
    ∀ (done : List (String × JSVal)) (k : String) (x : JSVal),
      (∀ d ∈ done, d.1 ≠ k) →
      done.map (fun p => if p.1 = k then (k, x) else p) = done := by
  intro done k x
  induction done with
  | nil => intro _; rfl
  | cons d rest ih =>
      intro h
      rw [List.map_cons, if_neg (h d (List.mem_cons_self d rest)),
        ih (fun q hq => h q (List.mem_cons_of_mem d hq))]

theorem assignKV_append_self (done : List (String × JSVal)) (k : String) (c x : JSVal)
    (h : ∀ d ∈ done, d.1 ≠ k) : assignKV (done ++ [(k, c)]) k x = done ++ [(k, x)] := by
  have hany : ((done ++ [(k, c)]).any fun p => p.1 = k) = true := by simp
  unfold assignKV
  rw [if_pos hany, List.map_append, assignKV_map_keep done k x h]
  simp

theorem truthy_vundef : truthy vundef = false := rfl

theorem truthy_varr (es : List JSVal) : truthy (varr es) = true := rfl

theorem set_append_last {α : Type} :
    ∀ (acc : List α) (c x : α), (acc ++ [c]).set acc.length x = acc ++ [x] := by
  intro acc c x
  induction acc with
  | nil => rfl
  | cons a rest ih =>
      show a :: (rest ++ [c]).set rest.length x = a :: (rest ++ [x])
      rw [ih]

theorem getIdx_self_len : ∀ (acc : List JSVal), getIdx (varr acc) acc.length = vundef := by
  intro acc
  show acc.getD acc.length vundef = vundef
  induction acc with
  | nil => rfl
  | cons a rest ih =>
      show rest.getD rest.length vundef = vundef
      exact ih

theorem getIdx_append_last : ∀ (acc : List JSVal) (c : JSVal),
    getIdx (varr (acc ++ [c])) acc.length = c := by
  intro acc c
  show (acc ++ [c]).getD acc.length vundef = c
  induction acc with
  | nil => rfl
  | cons a rest ih =>
      show (rest ++ [c]).getD rest.length vundef = c
      exact ih

theorem setIdx_append_new (acc : List JSVal) (x : JSVal) :
    setIdx (varr acc) acc.length x = varr (acc ++ [x]) := by
  show (if acc.length < acc.length then varr (acc.set acc.length x)
        else varr (acc ++ List.replicate (acc.length - acc.length) vundef ++ [x])) = _
  rw [if_neg (Nat.lt_irrefl _)]
  simp

theorem setIdx_replace_last (acc : List JSVal) (c x : JSVal) :
    setIdx (varr (acc ++ [c])) acc.length x = varr (acc ++ [x]) := by
  show (if acc.length < (acc ++ [c]).length then varr ((acc ++ [c]).set acc.length x)
        else varr ((acc ++ [c]) ++ List.replicate (acc.length - (acc ++ [c]).length) vundef ++ [x]))
      = _
  rw [if_pos (by simp)]
  rw [set_append_last]

theorem noFunF_cons {k : String} {v : JSVal} {rest : List (String × JSVal)}
    (h : noFunF ((k, v) :: rest) = true) : noFunV v = true ∧ noFunF rest = true := by
  unfold noFunF at h
  simpa using h

theorem noFunL_cons {e : JSVal} {rest : List JSVal}
    (h : noFunL (e :: rest) = true) : noFunV e = true ∧ noFunL rest = true := by
  unfold noFunL at h
  simpa using h

theorem insertSegs_prop_leaf (cur : JSVal) (k : String) (value : JSVal) :
    insertSegs cur [Seg.sprop k] value = setProp cur k (reconstructLeaf value) := rfl

theorem insertSegs_idx_leaf (cur : JSVal) (k : String) (i : Nat) (value : JSVal) :
    insertSegs cur [Seg.sidx k i] value
      = setProp (if truthy (getProp cur k) then cur else setProp cur k (varr [])) k
          (setIdx (getProp (if truthy (getProp cur k) then cur else setProp cur k (varr [])) k) i
            (reconstructLeaf value)) := rfl

theorem insertSegs_idx_cons (cur : JSVal) (k : String) (i : Nat) (rest : List Seg) (value : JSVal)
    (h : rest.isEmpty = false) :
    insertSegs cur (Seg.sidx k i :: rest) value
      = setProp (if truthy (getProp cur k) then cur else setProp cur k (varr [])) k
          (setIdx (getProp (if truthy (getProp cur k) then cur else setProp cur k (varr [])) k) i
            (insertSegs
              (if isObjLike (getIdx
                    (getProp (if truthy (getProp cur k) then cur else setProp cur k (varr [])) k) i)
               then getIdx
                    (getProp (if truthy (getProp cur k) then cur else setProp cur k (varr [])) k) i
               else vobj [])
              rest value)) := by
  rw [insertSegs_idx_eqn, h]
  simp

theorem insertSegs_idx_congr (cur cur2 : JSVal) (k : String) (i : Nat) (rest : List Seg)
    (value : JSVal)
    (h : (if truthy (getProp cur k) then cur else setProp cur k (varr []))
       = (if truthy (getProp cur2 k) then cur2 else setProp cur2 k (varr []))) :
    insertSegs cur (Seg.sidx k i :: rest) value
      = insertSegs cur2 (Seg.sidx k i :: rest) value := by
  rw [insertSegs_idx_eqn, insertSegs_idx_eqn, h]

theorem setProp_ite (c : Prop) [Decidable c] (m1 m2 : List (String × JSVal)) (k : String)
    (x : JSVal) :
    setProp (if c then vobj m1 else vobj m2) k x
      = vobj (if c then assignKV m1 k x else assignKV m2 k x) := by
  by_cases h : c
  · rw [if_pos h, if_pos h]
    exact setProp_vobj m1 k x
  · rw [if_neg h, if_neg h]
    exact setProp_vobj m2 k x

theorem insertSegs_isVobj :
    ∀ (p : List Seg) (m : List (String × JSVal)) (v : JSVal),
      ∃ m2, insertSegs (vobj m) p v = vobj m2 := by
  intro p m v
  cases p with
  | nil => exact ⟨m, rfl⟩
  | cons s rest =>
      cases s with
      | sprop k =>
          cases rest with
          | nil => exact ⟨assignKV m k (reconstructLeaf v), rfl⟩
          | cons t ts =>
              rw [insertSegs_prop_cons (vobj m) k (t :: ts) v rfl]
              exact ⟨_, rfl⟩
      | sidx k i =>
          rw [insertSegs_idx_eqn, setProp_vobj]
          by_cases hre : rest.isEmpty = true
          · rw [if_pos hre, setProp_ite]
            exact ⟨_, rfl⟩
          · rw [if_neg hre, setProp_ite]
            exact ⟨_, rfl⟩

theorem foldPropPrefix :
    ∀ (prs : List (List Seg × JSVal)) (k : String) (done cf : List (String × JSVal)),
      (∀ d ∈ done, d.1 ≠ k) → (∀ pr ∈ prs, pr.1 ≠ []) →
      prs.foldl (fun r pr => insertSegs r (Seg.sprop k :: pr.1) pr.2)
          (vobj (done ++ [(k, vobj cf)]))
        = vobj (done ++ [(k, prs.foldl (fun r pr => insertSegs r pr.1 pr.2) (vobj cf))]) := by
  intro prs
  induction prs with
  | nil => intro k done cf _ _; rfl
  | cons pr rest ih =>
      intro k done cf hdone hne
      have hpr1 : pr.1.isEmpty = false := by
        cases hc : pr.1 with
        | nil => exact absurd hc (hne pr (List.mem_cons_self pr rest))
        | cons a b => rfl
      simp only [List.foldl_cons]
      rw [insertSegs_prop_cons _ k pr.1 pr.2 hpr1]
      rw [getProp_append_self done k (vobj cf) hdone]
      rw [show (if isObjLike (vobj cf) then vobj cf else vobj ([] : List (String × JSVal)))
          = vobj cf from rfl]
      rw [setProp_vobj, assignKV_append_self done k (vobj cf) _ hdone]
      obtain ⟨cf2, hcf2⟩ := insertSegs_isVobj pr.1 cf pr.2
      rw [hcf2]
      rw [ih k done cf2 hdone (fun q hq => hne q (List.mem_cons_of_mem pr hq))]

theorem foldIdxPrefix :
    ∀ (prs : List (List Seg × JSVal)) (k : String) (done : List (String × JSVal))
      (acc : List JSVal) (cf : List (String × JSVal)),
      (∀ d ∈ done, d.1 ≠ k) → (∀ pr ∈ prs, pr.1 ≠ []) →
      prs.foldl (fun r pr => insertSegs r (Seg.sidx k acc.length :: pr.1) pr.2)
          (vobj (done ++ [(k, varr (acc ++ [vobj cf]))]))
        = vobj (done ++ [(k, varr (acc ++
            [prs.foldl (fun r pr => insertSegs r pr.1 pr.2) (vobj cf)]))]) := by
  intro prs
  induction prs with
  | nil => intro k done acc cf _ _; rfl
  | cons pr rest ih =>
      intro k done acc cf hdone hne
      have hpr1 : pr.1.isEmpty = false := by
        cases hc : pr.1 with
        | nil => exact absurd hc (hne pr (List.mem_cons_self pr rest))
        | cons a b => rfl
      simp only [List.foldl_cons]
      rw [insertSegs_idx_cons _ k acc.length pr.1 pr.2 hpr1]
      rw [getProp_append_self done k (varr (acc ++ [vobj cf])) hdone]
      rw [truthy_varr, if_pos (rfl : true = true)]
      rw [getProp_append_self done k (varr (acc ++ [vobj cf])) hdone]
      rw [getIdx_append_last acc (vobj cf)]
      rw [show (if isObjLike (vobj cf) then vobj cf else vobj ([] : List (String × JSVal)))
          = vobj cf from rfl]
      obtain ⟨cf2, hcf2⟩ := insertSegs_isVobj pr.1 cf pr.2
      rw [hcf2]
      rw [setIdx_replace_last acc (vobj cf) (vobj cf2)]
      rw [setProp_vobj, assignKV_append_self done k (varr (acc ++ [vobj cf])) _ hdone]
      rw [ih k done acc cf2 hdone (fun q hq => hne q (List.mem_cons_of_mem pr hq))]


mutual
theorem foldFields :
    ∀ (fields done : List (String × JSVal)),
      wfFields fields = true → noFunF fields = true →
      (∀ q ∈ fields, ∀ d ∈ done, d.1 ≠ q.1) →
      (pathsFields fields).foldl (fun r pr => insertSegs r pr.1 pr.2) (vobj done)
        = vobj (done ++ fields)
  | [], done, _, _, _ => by
      show (([] : List (List Seg × JSVal)).foldl (fun r pr => insertSegs r pr.1 pr.2) (vobj done))
          = vobj (done ++ [])
      simp
  | (k, v) :: rest, done, h, hnf, hdis => by
      obtain ⟨hk, hv, hdisk, hrest⟩ := wfFields_cons h
      obtain ⟨hnfv, hnfrest⟩ := noFunF_cons hnf
      show ((pathsEntry k v ++ pathsFields rest).foldl
            (fun r pr => insertSegs r pr.1 pr.2) (vobj done))
          = vobj (done ++ (k, v) :: rest)
      rw [List.foldl_append]
      rw [foldEntry k v done hk hv hnfv
        (fun d hd => hdis (k, v) (List.mem_cons_self _ _) d hd)]
      have hd2 : ∀ q ∈ rest, ∀ d ∈ done ++ [(k, v)], d.1 ≠ q.1 := by
        intro q hq d hd
        rcases List.mem_append.mp hd with h1 | h1
        · exact hdis q (List.mem_cons_of_mem _ hq) d h1
        · rcases List.mem_singleton.mp h1 with rfl
          show k ≠ q.1
          exact fun hc => (hdisk q hq) hc.symm
      rw [foldFields rest (done ++ [(k, v)]) hrest hnfrest hd2]
      simp
termination_by fields _ _ _ _ => (jsizeF fields, 0)
decreasing_by
  all_goals simp only [jsizeV, jsizeF, jsizeL]
  all_goals first
    | (apply Prod.Lex.right; omega)
    | (apply Prod.Lex.left; omega)
    | omega

theorem foldEntry :
    ∀ (k : String) (v : JSVal) (done : List (String × JSVal)),
      wfKeyB k = true → wfVal v = true → noFunV v = true →
      (∀ d ∈ done, d.1 ≠ k) →
      (pathsEntry k v).foldl (fun r pr => insertSegs r pr.1 pr.2) (vobj done)
        = vobj (done ++ [(k, v)])
  | k, vundef, done, hk, hv, hnf, hdone => by
      show (([([Seg.sprop k], vundef)]).foldl (fun r pr => insertSegs r pr.1 pr.2) (vobj done))
          = vobj (done ++ [(k, vundef)])
      simp only [List.foldl_cons, List.foldl_nil]
      rw [insertSegs_prop_leaf, show reconstructLeaf vundef = vundef from rfl,
        setProp_vobj, assignKV_notmem vundef hdone]
  | k, vnull, done, hk, hv, hnf, hdone => by
      show (([([Seg.sprop k], vnull)]).foldl (fun r pr => insertSegs r pr.1 pr.2) (vobj done))
          = vobj (done ++ [(k, vnull)])
      simp only [List.foldl_cons, List.foldl_nil]
      rw [insertSegs_prop_leaf, show reconstructLeaf vnull = vnull from rfl,
        setProp_vobj, assignKV_notmem vnull hdone]
  | k, vbool b, done, hk, hv, hnf, hdone => by
      show (([([Seg.sprop k], vbool b)]).foldl (fun r pr => insertSegs r pr.1 pr.2) (vobj done))
          = vobj (done ++ [(k, vbool b)])
      simp only [List.foldl_cons, List.foldl_nil]
      rw [insertSegs_prop_leaf, show reconstructLeaf (vbool b) = vbool b from rfl,
        setProp_vobj, assignKV_notmem (vbool b) hdone]
  | k, vnum n, done, hk, hv, hnf, hdone => by
      show (([([Seg.sprop k], vnum n)]).foldl (fun r pr => insertSegs r pr.1 pr.2) (vobj done))
          = vobj (done ++ [(k, vnum n)])
      simp only [List.foldl_cons, List.foldl_nil]
      rw [insertSegs_prop_leaf, show reconstructLeaf (vnum n) = vnum n from rfl,
        setProp_vobj, assignKV_notmem (vnum n) hdone]
  | k, vstr t, done, hk, hv, hnf, hdone => by
      show (([([Seg.sprop k], vstr t)]).foldl (fun r pr => insertSegs r pr.1 pr.2) (vobj done))
          = vobj (done ++ [(k, vstr t)])
      simp only [List.foldl_cons, List.foldl_nil]
      rw [insertSegs_prop_leaf, show reconstructLeaf (vstr t) = vstr t from rfl,
        setProp_vobj, assignKV_notmem (vstr t) hdone]
  | k, vfun src, done, hk, hv, hnf, hdone => by
      exact absurd hnf (by simp [noFunV])
  | k, vobj gf, done, hk, hv, hnf, hdone => by
      obtain ⟨hgfne, hwfgf⟩ := wfVal_vobj hv
      have hnfgf : noFunF gf = true := hnf
      show (((pathsFields gf).map (fun pr => (Seg.sprop k :: pr.1, pr.2))).foldl
            (fun r pr => insertSegs r pr.1 pr.2) (vobj done))
          = vobj (done ++ [(k, vobj gf)])
      simp only [List.foldl_map]
      cases hp : pathsFields gf with
      | nil => exact absurd hp (pathsFields_ne gf hwfgf hgfne)
      | cons pr1 prs =>
          have hmem1 : pr1 ∈ pathsFields gf := by
            rw [hp]; exact List.mem_cons_self pr1 prs
          have hwfp := pathsFields_wfp gf hwfgf
          have hpr1e : pr1.1.isEmpty = false := by
            cases hc : pr1.1 with
            | nil => exact absurd hc (hwfp pr1 hmem1).1
            | cons a b => rfl
          simp only [List.foldl_cons]
          rw [insertSegs_prop_cons _ k pr1.1 pr1.2 hpr1e]
          rw [getProp_notmem done k hdone]
          rw [show (if isObjLike vundef then vundef else vobj ([] : List (String × JSVal)))
              = vobj [] from rfl]
          rw [setProp_vobj, assignKV_notmem _ hdone]
          obtain ⟨c1, hc1⟩ := insertSegs_isVobj pr1.1 [] pr1.2
          rw [hc1]
          rw [foldPropPrefix prs k done c1 hdone
            (fun q hq => (hwfp q (by rw [hp]; exact List.mem_cons_of_mem pr1 hq)).1)]
          rw [← hc1]
          rw [show prs.foldl (fun r pr => insertSegs r pr.1 pr.2) (insertSegs (vobj []) pr1.1 pr1.2)
              = (pr1 :: prs).foldl (fun r pr => insertSegs r pr.1 pr.2) (vobj []) from rfl]
          rw [← hp]
          rw [foldFields gf [] hwfgf hnfgf (fun q _ d hd => absurd hd (List.not_mem_nil d))]
          rw [List.nil_append]
  | k, varr es, done, hk, hv, hnf, hdone => by
      obtain ⟨hesne, hwfes⟩ := wfVal_varr hv
      have hnfes : noFunL es = true := hnf
      show ((pathsElems k es 0).foldl (fun r pr => insertSegs r pr.1 pr.2) (vobj done))
          = vobj (done ++ [(k, varr es)])
      cases hp : pathsElems k es 0 with
      | nil => exact absurd hp (pathsElems_ne k es 0 hwfes hesne)
      | cons pr1 prs =>
          have hmem1 : pr1 ∈ pathsElems k es 0 := by
            rw [hp]; exact List.mem_cons_self pr1 prs
          obtain ⟨j, sub, hj, _⟩ := pathsElems_headKey k es 0 pr1 hmem1
          simp only [List.foldl_cons]
          have hcur : (if truthy (getProp (vobj done) k) then vobj done
                        else setProp (vobj done) k (varr []))
              = (if truthy (getProp (vobj (done ++ [(k, varr ([] : List JSVal))])) k)
                 then vobj (done ++ [(k, varr ([] : List JSVal))])
                 else setProp (vobj (done ++ [(k, varr ([] : List JSVal))])) k (varr [])) := by
            rw [getProp_notmem done k hdone,
              getProp_append_self done k (varr ([] : List JSVal)) hdone]
            rw [truthy_vundef, truthy_varr]
            rw [if_neg (by simp : ¬(false = true)), if_pos (rfl : true = true)]
            rw [setProp_vobj, assignKV_notmem (varr ([] : List JSVal)) hdone]
          have hstep : insertSegs (vobj done) pr1.1 pr1.2
              = insertSegs (vobj (done ++ [(k, varr ([] : List JSVal))])) pr1.1 pr1.2 := by
            rw [hj]
            exact insertSegs_idx_congr (vobj done) (vobj (done ++ [(k, varr [])])) k j sub
              pr1.2 hcur
          rw [hstep]
          rw [show prs.foldl (fun r pr => insertSegs r pr.1 pr.2)
                (insertSegs (vobj (done ++ [(k, varr ([] : List JSVal))])) pr1.1 pr1.2)
              = (pr1 :: prs).foldl (fun r pr => insertSegs r pr.1 pr.2)
                  (vobj (done ++ [(k, varr ([] : List JSVal))])) from rfl]
          rw [← hp]
          rw [foldElems k es 0 [] done hwfes hnfes hk hdone rfl]
          rw [List.nil_append]
termination_by _ v _ _ _ _ _ => (jsizeV v, 0)
decreasing_by
  all_goals simp only [jsizeV, jsizeF, jsizeL]
  all_goals first
    | (apply Prod.Lex.right; omega)
    | (apply Prod.Lex.left; omega)
    | omega

theorem foldElems :
    ∀ (k : String) (es : List JSVal) (i : Nat) (acc : List JSVal)
      (done : List (String × JSVal)),
      wfElems es = true → noFunL es = true → wfKeyB k = true →
      (∀ d ∈ done, d.1 ≠ k) → i = acc.length →
      (pathsElems k es i).foldl (fun r pr => insertSegs r pr.1 pr.2)
          (vobj (done ++ [(k, varr acc)]))
        = vobj (done ++ [(k, varr (acc ++ es))])
  | k, [], i, acc, done, _, _, _, _, _ => by
      show (([] : List (List Seg × JSVal)).foldl (fun r pr => insertSegs r pr.1 pr.2)
            (vobj (done ++ [(k, varr acc)])))
          = vobj (done ++ [(k, varr (acc ++ []))])
      simp
  | k, vobj gf :: rest, i, acc, done, h, hnf, hk, hdone, hlen => by
      subst hlen
      obtain ⟨hgfne, hwfgf, hrest⟩ := wfElems_cons_vobj h
      obtain ⟨hnfv, hnfrest⟩ := noFunL_cons hnf
      have hnfgf : noFunF gf = true := hnfv
      show (((pathsFields gf).map (fun pr => (Seg.sidx k acc.length :: pr.1, pr.2))
              ++ pathsElems k rest (acc.length + 1)).foldl
            (fun r pr => insertSegs r pr.1 pr.2) (vobj (done ++ [(k, varr acc)])))
          = vobj (done ++ [(k, varr (acc ++ vobj gf :: rest))])
      rw [List.foldl_append]
      simp only [List.foldl_map]
      cases hp : pathsFields gf with
      | nil => exact absurd hp (pathsFields_ne gf hwfgf hgfne)
      | cons pr1 prs =>
          have hmem1 : pr1 ∈ pathsFields gf := by
            rw [hp]; exact List.mem_cons_self pr1 prs
          have hwfp := pathsFields_wfp gf hwfgf
          have hpr1e : pr1.1.isEmpty = false := by
            cases hc : pr1.1 with
            | nil => exact absurd hc (hwfp pr1 hmem1).1
            | cons a b => rfl
          simp only [List.foldl_cons]
          rw [insertSegs_idx_cons _ k acc.length pr1.1 pr1.2 hpr1e]
          rw [getProp_append_self done k (varr acc) hdone]
          rw [truthy_varr, if_pos (rfl : true = true)]
          rw [getProp_append_self done k (varr acc) hdone]
          rw [getIdx_self_len]
          rw [show (if isObjLike vundef then vundef else vobj ([] : List (String × JSVal)))
              = vobj [] from rfl]
          obtain ⟨c1, hc1⟩ := insertSegs_isVobj pr1.1 [] pr1.2
          rw [hc1]
          rw [setIdx_append_new acc (vobj c1)]
          rw [setProp_vobj, assignKV_append_self done k (varr acc) _ hdone]
          rw [foldIdxPrefix prs k done acc c1 hdone
            (fun q hq => (hwfp q (by rw [hp]; exact List.mem_cons_of_mem pr1 hq)).1)]
          rw [← hc1]
          rw [show prs.foldl (fun r pr => insertSegs r pr.1 pr.2) (insertSegs (vobj []) pr1.1 pr1.2)
              = (pr1 :: prs).foldl (fun r pr => insertSegs r pr.1 pr.2) (vobj []) from rfl]
          rw [← hp]
          rw [foldFields gf [] hwfgf hnfgf (fun q _ d hd => absurd hd (List.not_mem_nil d))]
          rw [List.nil_append]
          rw [show acc.length + 1 = (acc ++ [vobj gf]).length by simp]
          rw [foldElems k rest (acc ++ [vobj gf]).length (acc ++ [vobj gf]) done hrest hnfrest
            hk hdone rfl]
          simp
  | k, varr es2 :: rest, i, acc, done, h, hnf, hk, hdone, hlen => by
      exact absurd h (by simp [wfElems])
  | k, vfun src :: rest, i, acc, done, h, hnf, hk, hdone, hlen => by
      exact absurd (noFunL_cons hnf).1 (by simp [noFunV])
  | k, vundef :: rest, i, acc, done, h, hnf, hk, hdone, hlen => by
      subst hlen
      show ((([Seg.sidx k acc.length], vundef) :: pathsElems k rest (acc.length + 1)).foldl
            (fun r pr => insertSegs r pr.1 pr.2) (vobj (done ++ [(k, varr acc)])))
          = vobj (done ++ [(k, varr (acc ++ vundef :: rest))])
      simp only [List.foldl_cons]
      rw [insertSegs_idx_leaf]
      rw [getProp_append_self done k (varr acc) hdone]
      rw [truthy_varr, if_pos (rfl : true = true)]
      rw [getProp_append_self done k (varr acc) hdone]
      rw [show reconstructLeaf vundef = vundef from rfl]
      rw [setIdx_append_new acc vundef]
      rw [setProp_vobj, assignKV_append_self done k (varr acc) _ hdone]
      rw [show acc.length + 1 = (acc ++ [vundef]).length by simp]
      rw [foldElems k rest (acc ++ [vundef]).length (acc ++ [vundef]) done
        (wfElems_cons_rest h) (noFunL_cons hnf).2 hk hdone rfl]
      simp
  | k, vnull :: rest, i, acc, done, h, hnf, hk, hdone, hlen => by
      subst hlen
      show ((([Seg.sidx k acc.length], vnull) :: pathsElems k rest (acc.length + 1)).foldl
            (fun r pr => insertSegs r pr.1 pr.2) (vobj (done ++ [(k, varr acc)])))
          = vobj (done ++ [(k, varr (acc ++ vnull :: rest))])
      simp only [List.foldl_cons]
      rw [insertSegs_idx_leaf]
      rw [getProp_append_self done k (varr acc) hdone]
      rw [truthy_varr, if_pos (rfl : true = true)]
      rw [getProp_append_self done k (varr acc) hdone]
      rw [show reconstructLeaf vnull = vnull from rfl]
      rw [setIdx_append_new acc vnull]
      rw [setProp_vobj, assignKV_append_self done k (varr acc) _ hdone]
      rw [show acc.length + 1 = (acc ++ [vnull]).length by simp]
      rw [foldElems k rest (acc ++ [vnull]).length (acc ++ [vnull]) done
        (wfElems_cons_rest h) (noFunL_cons hnf).2 hk hdone rfl]
      simp
  | k, vbool b :: rest, i, acc, done, h, hnf, hk, hdone, hlen => by
      subst hlen
      show ((([Seg.sidx k acc.length], vbool b) :: pathsElems k rest (acc.length + 1)).foldl
            (fun r pr => insertSegs r pr.1 pr.2) (vobj (done ++ [(k, varr acc)])))
          = vobj (done ++ [(k, varr (acc ++ vbool b :: rest))])
      simp only [List.foldl_cons]
      rw [insertSegs_idx_leaf]
      rw [getProp_append_self done k (varr acc) hdone]
      rw [truthy_varr, if_pos (rfl : true = true)]
      rw [getProp_append_self done k (varr acc) hdone]
      rw [show reconstructLeaf (vbool b) = vbool b from rfl]
      rw [setIdx_append_new acc (vbool b)]
      rw [setProp_vobj, assignKV_append_self done k (varr acc) _ hdone]
      rw [show acc.length + 1 = (acc ++ [vbool b]).length by simp]
      rw [foldElems k rest (acc ++ [vbool b]).length (acc ++ [vbool b]) done
        (wfElems_cons_rest h) (noFunL_cons hnf).2 hk hdone rfl]
      simp
  | k, vnum n :: rest, i, acc, done, h, hnf, hk, hdone, hlen => by
      subst hlen
      show ((([Seg.sidx k acc.length], vnum n) :: pathsElems k rest (acc.length + 1)).foldl
            (fun r pr => insertSegs r pr.1 pr.2) (vobj (done ++ [(k, varr acc)])))
          = vobj (done ++ [(k, varr (acc ++ vnum n :: rest))])
      simp only [List.foldl_cons]
      rw [insertSegs_idx_leaf]
      rw [getProp_append_self done k (varr acc) hdone]
      rw [truthy_varr, if_pos (rfl : true = true)]
      rw [getProp_append_self done k (varr acc) hdone]
      rw [show reconstructLeaf (vnum n) = vnum n from rfl]
      rw [setIdx_append_new acc (vnum n)]
      rw [setProp_vobj, assignKV_append_self done k (varr acc) _ hdone]
      rw [show acc.length + 1 = (acc ++ [vnum n]).length by simp]
      rw [foldElems k rest (acc ++ [vnum n]).length (acc ++ [vnum n]) done
        (wfElems_cons_rest h) (noFunL_cons hnf).2 hk hdone rfl]
      simp
  | k, vstr t :: rest, i, acc, done, h, hnf, hk, hdone, hlen => by
      subst hlen
      show ((([Seg.sidx k acc.length], vstr t) :: pathsElems k rest (acc.length + 1)).foldl
            (fun r pr => insertSegs r pr.1 pr.2) (vobj (done ++ [(k, varr acc)])))
          = vobj (done ++ [(k, varr (acc ++ vstr t :: rest))])
      simp only [List.foldl_cons]
      rw [insertSegs_idx_leaf]
      rw [getProp_append_self done k (varr acc) hdone]
      rw [truthy_varr, if_pos (rfl : true = true)]
      rw [getProp_append_self done k (varr acc) hdone]
      rw [show reconstructLeaf (vstr t) = vstr t from rfl]
      rw [setIdx_append_new acc (vstr t)]
      rw [setProp_vobj, assignKV_append_self done k (varr acc) _ hdone]
      rw [show acc.length + 1 = (acc ++ [vstr t]).length by simp]
      rw [foldElems k rest (acc ++ [vstr t]).length (acc ++ [vstr t]) done
        (wfElems_cons_rest h) (noFunL_cons hnf).2 hk hdone rfl]
      simp
termination_by _ es _ _ _ _ _ _ _ _ => (jsizeL es, 1)
decreasing_by
  all_goals simp only [jsizeV, jsizeF, jsizeL]
  all_goals first
    | (apply Prod.Lex.right; omega)
    | (apply Prod.Lex.left; omega)
    | omega
end


/-- C1 (corrected): the round trip holds once the hypotheses match what the
code supports: for a root plain object whose tree has nonempty keys without
the separator and without a trailing bracket-index pattern, pairwise
distinct keys per object, no empty nested object or array, no array
directly inside an array, and no function values,
`unflattenObject (flattenObject v)` is structurally equal to `v`.  (The
spec's version quantifies over all collision-free, function-free values:
it fails on empty nested containers — see the counterexample — and says
nothing of the root having to be a plain object.) -/
theorem claim_C1 (fields : List (String × JSVal))
    (hwf : wfFields fields = true) (hnf : noFunF fields = true) :
    unflattenObject (flattenObject (vobj fields)) = vobj fields := by
  show ((forInPairs (flattenObject (vobj fields) "" ".")).foldl
      (fun result p => unflattenInsert result (jsSplit p.1 ".") p.2) (vobj [])) = vobj fields
  rw [show flattenObject (vobj fields) "" "." = vobj (flattenFields fields "" "." []) from rfl]
  rw [show forInPairs (vobj (flattenFields fields "" "." [])) = flattenFields fields "" "." []
      from rfl]
  rw [flattenFields_paths fields "" [] hwf (fun pr hpr q hq => absurd hq (List.not_mem_nil q))]
  rw [List.nil_append]
  simp only [List.foldl_map]
  have hpoint : ∀ pr ∈ pathsFields fields, ∀ x,
      unflattenInsert x (jsSplit (keyOfPath "" pr.1) ".") pr.2 = insertSegs x pr.1 pr.2 := by
    intro pr hpr x
    have hw := pathsFields_wfp fields hwf pr hpr
    rw [jsSplit_keyOfPath pr.1 hw.1 hw.2, unflattenInsert_segs pr.1 x pr.2 hw.2]
  rw [foldl_congr_mem (pathsFields fields)
    (fun x pr => unflattenInsert x (jsSplit (keyOfPath "" pr.1) ".") pr.2)
    (fun x pr => insertSegs x pr.1 pr.2) (vobj []) hpoint]
  rw [foldFields fields [] hwf hnf (fun q _ d hd => absurd hd (List.not_mem_nil d))]
  rw [List.nil_append]

theorem claim_C1_witness :
    (wfFields [("name", vstr "nano"),
        ("info", vobj [("tags", varr [vstr "a", vnum 2]),
                       ("deep", vobj [("x", vbool true)])])] = true)
    ∧ (noFunF [("name", vstr "nano"),
        ("info", vobj [("tags", varr [vstr "a", vnum 2]),
                       ("deep", vobj [("x", vbool true)])])] = true)
    ∧ unflattenObject (flattenObject (vobj [("name", vstr "nano"),
        ("info", vobj [("tags", varr [vstr "a", vnum 2]),
                       ("deep", vobj [("x", vbool true)])])]))
        = vobj [("name", vstr "nano"),
            ("info", vobj [("tags", varr [vstr "a", vnum 2]),
                           ("deep", vobj [("x", vbool true)])])] :=
  ⟨by decide, by decide,
    claim_C1 [("name", vstr "nano"),
        ("info", vobj [("tags", varr [vstr "a", vnum 2]),
                       ("deep", vobj [("x", vbool true)])])] (by decide) (by decide)⟩


/-- C7 (corrected): the function marker actually stored is the single-field
record `{ __function__: source }`, not the spec's
`{ isSerializedFunction: true, sourceText: string }` (see the
counterexample).  With the corrected shape the rest of the claim holds: for
an object with a function-valued property under a collision-free key,
`flattenObject` stores `{ __function__: src }` at that key, and
`unflattenObject` recognizes an object bearing a `__function__` key at a
terminal segment, rebuilding a callable from the stored source, so the
round trip restores the function property. -/
theorem claim_C7 (k src : String) (hk : wfKeyB k = true) :
    getProp (flattenObject (vobj [(k, vfun src)])) k = markerObj src
      ∧ reconstructLeaf (markerObj src) = vfun src
      ∧ unflattenObject (flattenObject (vobj [(k, vfun src)])) = vobj [(k, vfun src)] := by
  have hj : joinKey "" "." k = k := by simp [joinKey]
  have hflat : flattenObject (vobj [(k, vfun src)]) "" "." = vobj [(k, markerObj src)] := by
    show vobj (assignKV [] (joinKey "" "." k) (markerObj src)) = vobj [(k, markerObj src)]
    rw [hj]
    rfl
  have hrecon : reconstructLeaf (markerObj src) = vfun src := rfl
  refine ⟨?_, hrecon, ?_⟩
  · rw [hflat]
    show (if k = k then some (markerObj src) else lookupKV [] k).getD vundef = markerObj src
    rw [if_pos rfl]
    rfl
  · show ((forInPairs (flattenObject (vobj [(k, vfun src)]) "" ".")).foldl
        (fun result p => unflattenInsert result (jsSplit p.1 ".") p.2) (vobj []))
        = vobj [(k, vfun src)]
    rw [hflat]
    show ([(k, markerObj src)].foldl
        (fun result p => unflattenInsert result (jsSplit p.1 ".") p.2) (vobj []))
        = vobj [(k, vfun src)]
    simp only [List.foldl_cons, List.foldl_nil]
    have hkd := wfKeyB_facts hk
    have h1 : String.mk (dotJoinC [k.data]) = k := by
      apply string_ext
      show k.data ++ dotTail [] = k.data
      simp [dotTail]
    have hdf : ∀ q ∈ [k.data], '.' ∉ q := by
      intro q hq
      rcases List.mem_singleton.mp hq with rfl
      exact hkd.2.1
    have hsplit : jsSplit k "." = [k] := by
      rw [← h1, jsSplit_dotJoin [k.data] (by simp) hdf]
      rw [h1]
      rfl
    rw [hsplit]
    rw [unflattenInsert_none (vobj []) k [] (markerObj src) hkd.2.2]
    rw [hrecon]
    rfl

theorem claim_C7_witness :
    (wfKeyB "onClick" = true)
    ∧ (getProp (flattenObject (vobj [("onClick", vfun "() => 42")])) "onClick"
          = markerObj "() => 42"
        ∧ reconstructLeaf (markerObj "() => 42") = vfun "() => 42"
        ∧ unflattenObject (flattenObject (vobj [("onClick", vfun "() => 42")]))
            = vobj [("onClick", vfun "() => 42")]) :=
  ⟨by decide, claim_C7 "onClick" "() => 42" (by decide)⟩

end NanoSig
